import Mathlib

/-!
# git-remote-ipfs-iota, `core/push.go`: the push worklist

A shallow embedding of `Push.PushHash`, `Push.doWork` and `Push.processLinks`.
The worklist loop is a step function on an explicit state (the `Push` struct plus
the cursor `e` of the `for` loop); collaborators that live outside `push.go`
(the object store, the remote DAG store, the link parser, the multihash decoder,
`CidFromHex`) are fields of an environment record, so that every theorem holds
for all of their possible behaviours.
-/

namespace Core

/-- One byte of a Go `[]byte` or `string`. -/
abbrev Byte := Fin 256

/-- The bytes of an ASCII string: the conversion `[]byte(s)`. -/
def strBytes (s : String) : List Byte := s.data.map (fun c => Fin.ofNat c.toNat)

/-! ## `encoding/hex` -/

/-- The table `hextable = "0123456789abcdef"` of `encoding/hex`. -/
def hextable : List Char :=
  ['0', '1', '2', '3', '4', '5', '6', '7', '8', '9', 'a', 'b', 'c', 'd', 'e', 'f']

/-- Body of `hex.Encode`: two table characters per byte, `hextable[v>>4]` then `hextable[v&0x0f]`. -/
def encodeChars : List Byte → List Char
  | [] => []
  | v :: rest => hextable.getD (v.val / 16) '0' :: hextable.getD (v.val % 16) '0' :: encodeChars rest

/-- Go's `hex.EncodeToString`. -/
def EncodeToString (src : List Byte) : String := String.mk (encodeChars src)

/-- Go's `hex.fromHexChar`: the value of one hexadecimal digit, upper or lower case. -/
def fromHexChar (c : Char) : Option Nat :=
  if 48 ≤ c.toNat ∧ c.toNat ≤ 57 then some (c.toNat - 48)
  else if 97 ≤ c.toNat ∧ c.toNat ≤ 102 then some (c.toNat - 97 + 10)
  else if 65 ≤ c.toNat ∧ c.toNat ≤ 70 then some (c.toNat - 65 + 10)
  else none

/-- Go's `hex.Decode`: pairs of digits from the left; returns the bytes decoded before the
first error together with that error (`none` is Go's `nil`). The two error texts stand for
`InvalidByteError` and `ErrLength`. -/
def decodeChars : List Char → List Byte × Option String
  | [] => ([], none)
  | [a] =>
    match fromHexChar a with
    | none => ([], some "encoding/hex: invalid byte")
    | some _ => ([], some "encoding/hex: odd length hex string")
  | a :: b :: rest =>
    match fromHexChar a with
    | none => ([], some "encoding/hex: invalid byte")
    | some x =>
      match fromHexChar b with
      | none => ([], some "encoding/hex: invalid byte")
      | some y => (Fin.ofNat (x * 16 + y) :: (decodeChars rest).1, (decodeChars rest).2)

/-- Go's `hex.DecodeString`: the decoded bytes and the error. -/
def DecodeString (s : String) : List Byte × Option String := decodeChars s.data

/-! ## go-git `plumbing` -/

/-- The type `plumbing.ObjectType` with its named constants. -/
inductive ObjectType where
  | InvalidObject
  | CommitObject
  | TreeObject
  | BlobObject
  | TagObject
  | OFSDeltaObject
  | REFDeltaObject
  | AnyObject
  deriving DecidableEq, Repr

/-- What `doWork` uses of a `plumbing.EncodedObject`: `Type()`, `Size()` (an `int64`) and
`Reader()` followed by `ioutil.ReadAll`, each of the last two may fail. -/
structure EncodedObject where
  typ : ObjectType
  size : Int
  reader : Except String (Except String (List Byte))

/-- The function `plumbing.NewHash`: hex-decode (error ignored) and `copy` into a zeroed `[20]byte`. -/
def NewHash (s : String) : List Byte :=
  ((DecodeString s).1 ++ List.replicate 20 0).take 20

/-! ## State -/

/-- Modelled from the spec: `Tracker`, declared outside `push.go`, is the dedup ledger: a
key-existence store keyed by digest whose entries are never removed. It is the list of the
recorded digests. -/
abbrev Tracker := List (List Byte)

/-- One call of `api.DagPut`, kept as a trace entry: the digest of the frontier entry being
processed, the bytes handed over, the ledger at the moment of the call, the expected CID
string and what the remote store answered. -/
structure PutCall where
  sha : List Byte
  data : List Byte
  ledger : Tracker
  expected : String
  result : Except String String

/-- The mutable part of `Push`: the counters (`uint64`), the list `todo`, and the tracker.
`puts` and `adds` are traces of the `DagPut` and `AddEntry` calls made so far. -/
structure Push where
  done : Nat
  todoc : Nat
  todo : List String
  tracker : Tracker
  puts : List PutCall
  adds : List (List Byte)

/-- The collaborators of `doWork`.
* `hasEntryErr`, `addEntryErr`: whether the ledger call on a digest reports an I/O error;
* `CidFromHex`: the expected CID of an identifier, as its `String()`;
* `EncodedObject`: `repo.Storer.EncodedObject(plumbing.AnyObject, h)`;
* `DagPut`: the remote store, given the bytes of the earlier calls and of this one;
* `NewNode`: the optional observer (`none` is the `nil` field);
* `ParseObjectFromBuffer`: `ipldgit.ParseObjectFromBuffer` followed by `Links()`, as the
  multihash of every link;
* `mhDecode`: `mh.Decode`, as the `Digest` of the decoded multihash. -/
structure Env where
  hasEntryErr : List Byte → Option String
  addEntryErr : List Byte → Option String
  CidFromHex : String → Except String String
  EncodedObject : List Byte → Except String EncodedObject
  DagPut : List (List Byte) → List Byte → Except String String
  NewNode : Option (String → List Byte → Option String)
  ParseObjectFromBuffer : List Byte → Except String (List (List Byte))
  mhDecode : List Byte → Except String (List Byte)

/-- Modelled from the spec: `Tracker.HasEntry`, `Has(ObjectIdentifier) → bool or IOError`:
unless the call fails, whether the digest is in the ledger. -/
def HasEntry (w : Env) (p : Push) (sha : List Byte) : Except String Bool :=
  match w.hasEntryErr sha with
  | some e => .error e
  | none => .ok (decide (sha ∈ p.tracker))

/-- Modelled from the spec: `Tracker.AddEntry`, `Record(ObjectIdentifier) → ok or IOError`:
unless the call fails, the digest is in the ledger from then on. The call is added to the
trace `adds` in both cases. -/
def AddEntry (w : Env) (p : Push) (sha : List Byte) : Push × Option String :=
  match w.addEntryErr sha with
  | some e => ({ p with adds := p.adds ++ [sha] }, some e)
  | none => ({ p with adds := p.adds ++ [sha], tracker := sha :: p.tracker }, none)

/-- The constructor `NewPush`: empty list, `todoc = 1`, `done = 0`, over a given ledger. -/
def NewPush (tracker : Tracker) : Push :=
  { done := 0, todoc := 1, todo := [], tracker := tracker, puts := [], adds := [] }

/-! ## `processLinks` -/

/-- The `for _, link := range links` loop of `processLinks`. -/
def processLinksLoop (w : Env) : List (List Byte) → Push → Push × Option String
  | [], p => (p, none)
  | mhash :: links, p =>
    match w.mhDecode mhash with
    | .error e => (p, some ("push/process: " ++ e))
    | .ok digest =>
      match HasEntry w p digest with
      | .error e => (p, some ("push/process: " ++ e))
      | .ok true => processLinksLoop w links p
      | .ok false =>
        processLinksLoop w links
          { p with todoc := (p.todoc + 1) % 2 ^ 64, todo := p.todo ++ [EncodeToString digest] }

/-- The method `Push.processLinks`: the state afterwards and the returned error. -/
def processLinks (w : Env) (p : Push) (object : List Byte) : Push × Option String :=
  match w.ParseObjectFromBuffer object with
  | .error e => (p, some ("push/process: " ++ e))
  | .ok links => processLinksLoop w links p

/-! ## `doWork` -/

/-- The `switch obj.Type()` of `doWork`: the header `"<word> <size>\x00"` in front of the
payload for the four kinds, and no `default` branch. -/
def encodeObject (t : ObjectType) (size : Int) (raw : List Byte) : List Byte :=
  match t with
  | .CommitObject => strBytes ("commit " ++ toString size ++ "\x00") ++ raw
  | .TreeObject => strBytes ("tree " ++ toString size ++ "\x00") ++ raw
  | .BlobObject => strBytes ("blob " ++ toString size ++ "\x00") ++ raw
  | .TagObject => strBytes ("tag " ++ toString size ++ "\x00") ++ raw
  | _ => raw

/-- The text of the address mismatch error,
`"CIDs don\x27t match: expected %s, got %s"`. -/
def mismatchMsg (expectedCid res : String) : String :=
  "CIDs don\x27t match: expected " ++ expectedCid ++ ", got " ++ res

/-- Lines 112-139 of `doWork`: count, `DagPut`, `AddEntry`, compare the CIDs, `NewNode`,
`processLinks` (whose returned error is not looked at). The second component is the error
sent on `out`, if any. -/
def upload (w : Env) (p : Push) (sha : List Byte) (expectedCid : String) (raw : List Byte) :
    Push × Option String :=
  let res := w.DagPut (p.puts.map PutCall.data) raw
  let p1 : Push :=
    { p with done := (p.done + 1) % 2 ^ 64,
             puts := p.puts ++ [⟨sha, raw, p.tracker, expectedCid, res⟩] }
  match res with
  | .error e => (p1, some ("push: " ++ e))
  | .ok res =>
    match AddEntry w p1 sha with
    | (p2, some e) => (p2, some ("push: " ++ e))
    | (p3, none) =>
      if expectedCid ≠ res then
        (p3, some (mismatchMsg expectedCid res))
      else
        match w.NewNode with
        | some f =>
          match f expectedCid raw with
          | some e => (p3, some e)
          | none => ((processLinks w p3 raw).1, none)
        | none => ((processLinks w p3 raw).1, none)

/-- The decrement `todoc--` of a `uint64`: it wraps around at zero. -/
def dec64 (n : Nat) : Nat := if n = 0 then 2 ^ 64 - 1 else n - 1

/-- The body of the `for` loop of `doWork` on the frontier entry `hash`: the state afterwards
and the error sent on `out` (`none`: the loop goes on to `e.Next()`). -/
def body (w : Env) (p : Push) (hash : String) : Push × Option String :=
  match DecodeString hash with
  | (_, some e) => (p, some ("push: " ++ e))
  | (sha, none) =>
    match HasEntry w p sha with
    | .error e => (p, some ("push/process: " ++ e))
    | .ok true => ({ p with todoc := dec64 p.todoc }, none)
    | .ok false =>
      match w.CidFromHex hash with
      | .error e => (p, some ("push: " ++ e))
      | .ok expectedCid =>
        match w.EncodedObject (NewHash hash) with
        | .error e => (p, some ("push: " ++ e))
        | .ok obj =>
          match obj.reader with
          | .error e => (p, some ("push: " ++ e))
          | .ok rawReader =>
            match rawReader with
            | .error e => (p, some ("push: " ++ e))
            | .ok raw => upload w p sha expectedCid (encodeObject obj.typ obj.size raw)

/-- The goroutine of `doWork`: either the loop is at the list element of index `pos`
(`e` in the source; past the end is `e == nil`), or a value was sent on `out`. -/
inductive Run where
  | running (pos : Nat) (p : Push)
  | finished (err : Option String) (p : Push)

/-- The state of a run. -/
def Run.push : Run → Push
  | .running _ p => p
  | .finished _ p => p

/-- One turn of `for e := p.todo.Front(); e != nil; e = e.Next()`. -/
def step (w : Env) : Run → Run
  | .running pos p =>
    match p.todo.get? pos with
    | none => .finished none p
    | some hash =>
      match body w p hash with
      | (p', some err) => .finished (some err) p'
      | (p', none) => .running (pos + 1) p'
  | .finished err p => .finished err p

/-- The run after `n` turns of the loop. -/
def stepN (w : Env) : Nat → Run → Run
  | 0, r => r
  | n + 1, r => stepN w n (step w r)

/-- The method `Push.doWork`, observed after `fuel` turns of its loop. -/
def doWork (w : Env) (fuel : Nat) (p : Push) : Run := stepN w fuel (.running 0 p)

/-- The method `Push.PushHash`: `PushFront(hash)` then `doWork`. -/
def PushHash (w : Env) (fuel : Nat) (p : Push) (hash : String) : Run :=
  doWork w fuel { p with todo := hash :: p.todo }

/-- What `processLinks` may change: it appends the hex form of link digests that are not in
the ledger, and counts each of them in `todoc`. -/
structure Appended (w : Env) (links : List (List Byte)) (p q : Push) (ds : List (List Byte)) :
    Prop where
  done : q.done = p.done
  tracker : q.tracker = p.tracker
  puts : q.puts = p.puts
  adds : q.adds = p.adds
  todo : q.todo = p.todo ++ ds.map EncodeToString
  todoc : q.todoc % 2 ^ 64 = (p.todoc + ds.length) % 2 ^ 64
  bound : p.todoc < 2 ^ 64 → q.todoc < 2 ^ 64
  length : ds.length ≤ links.length
  fresh : ∀ d ∈ ds, d ∉ p.tracker ∧ ∃ m ∈ links, w.mhDecode m = .ok d

/-- The state of `upload` right after the `DagPut` call. -/
def afterPut (w : Env) (p : Push) (sha : List Byte) (expectedCid : String) (raw : List Byte) :
    Push :=
  { p with done := (p.done + 1) % 2 ^ 64,
           puts := p.puts ++
             [⟨sha, raw, p.tracker, expectedCid, w.DagPut (p.puts.map PutCall.data) raw⟩] }

/-- The state of `upload` once `AddEntry` has been called. -/
def afterAdd (w : Env) (p : Push) (sha : List Byte) (expectedCid : String) (raw : List Byte) :
    Push :=
  { afterPut w p sha expectedCid raw with adds := p.adds ++ [sha] }

/-- The state of `upload` once `AddEntry` has returned without error. -/
def afterRecord (w : Env) (p : Push) (sha : List Byte) (expectedCid : String) (raw : List Byte) :
    Push :=
  { afterAdd w p sha expectedCid raw with tracker := sha :: p.tracker }

/-- The uploads made so far: each one on a digest absent from the ledger at that moment, no
digest twice, and, while the loop runs, every uploaded digest recorded. -/
def PutsFresh : Run → Prop
  | .running _ p =>
    (∀ c ∈ p.puts, c.sha ∉ c.ledger) ∧ (p.puts.map PutCall.sha).Nodup ∧
      ∀ c ∈ p.puts, c.sha ∈ p.tracker
  | .finished _ p => (∀ c ∈ p.puts, c.sha ∉ c.ledger) ∧ (p.puts.map PutCall.sha).Nodup

/-- The counters against the list: `todoc` counts the uploads made plus the entries not yet
visited. Stated for lists shorter than `2 ^ 64`, the range of the counters. -/
def CountersOk : Run → Prop
  | .running pos p =>
    p.todo.length < 2 ^ 64 →
      pos ≤ p.todo.length ∧ p.done ≤ pos ∧ p.todoc + pos = p.done + p.todo.length
  | .finished err p =>
    p.todo.length < 2 ^ 64 → p.done ≤ p.todoc ∧ (err = none → p.done = p.todoc)

/-- What was sent on `out`: `none` while the loop still runs, `some none` for `out <- nil`,
`some (some e)` for an error. -/
def Run.signal : Run → Option (Option String)
  | .running _ _ => none
  | .finished err _ => some err

/-- The identifiers an object links to, as `processLinks` sees them: the digests of the links
of its parsed canonical form. -/
def objectLinks (w : Env) (id : List Byte) : List (List Byte) :=
  match w.EncodedObject id with
  | .ok obj =>
    match obj.reader with
    | .ok (.ok raw) =>
      match w.ParseObjectFromBuffer (encodeObject obj.typ obj.size raw) with
      | .ok links => links.filterMap (fun m => (w.mhDecode m).toOption)
      | .error _ => []
    | _ => []
  | .error _ => []

/-- Reachability through the links of the objects. -/
def Reachable (w : Env) (root d : List Byte) : Prop :=
  Relation.ReflTransGen (fun a b => b ∈ objectLinks w a) root d

/-- The ASCII kind word of the four supported kinds. -/
def kindWord : ObjectType → Option String
  | .CommitObject => some "commit"
  | .TreeObject => some "tree"
  | .BlobObject => some "blob"
  | .TagObject => some "tag"
  | _ => none

/-- The message `msg` contains the text `part`. -/
def Mentions (msg part : String) : Prop := ∃ a b, msg = a ++ part ++ b

/-- While the loop runs every address reported so far was the expected one; once it has
stopped, a call with another address is the last call made, and the error sent is the ledger
error when `AddEntry` failed on it, the mismatch message otherwise. -/
def Verified (w : Env) : Run → Prop
  | .running _ p => ∀ c ∈ p.puts, c.result = .ok c.expected
  | .finished err p =>
    ∀ c ∈ p.puts, ∀ res, c.result = .ok res → res ≠ c.expected →
      p.puts.getLast? = some c ∧
        ((w.addEntryErr c.sha = none ∧ err = some (mismatchMsg c.expected res)) ∨
          ∃ e, w.addEntryErr c.sha = some e ∧ err = some ("push: " ++ e))

/-- Every `AddEntry` call follows a `DagPut` call on the same digest that returned an
address, and every digest whose `DagPut` returned an address is in the ledger unless its
`AddEntry` failed. -/
def Recorded (w : Env) (r : Run) : Prop :=
  (∀ d ∈ r.push.adds, ∃ c ∈ r.push.puts, c.sha = d ∧ ∃ res, c.result = .ok res) ∧
    ∀ c ∈ r.push.puts, ∀ res, c.result = .ok res → w.addEntryErr c.sha = none →
      c.sha ∈ r.push.tracker

/-- The object graph is finite: `U` lists every digest that a stored object links to, and no
stored object has more than `L` links. -/
def FiniteGraph (w : Env) (U : List (List Byte)) (L : Nat) : Prop :=
  ∀ h obj raw links, w.EncodedObject h = .ok obj → obj.reader = .ok (.ok raw) →
    w.ParseObjectFromBuffer (encodeObject obj.typ obj.size raw) = .ok links →
      links.length ≤ L ∧ ∀ m ∈ links, ∀ d, w.mhDecode m = .ok d → d ∈ U

/-- The number of digests of `V` without a ledger entry. -/
def unrecorded (V : List (List Byte)) (p : Push) : Nat :=
  (V.filter (fun d => decide (d ∉ p.tracker))).length

/-- The quantity that every turn of the loop decreases. -/
def loopMeasure (V : List (List Byte)) (L : Nat) (pos : Nat) (p : Push) : Nat :=
  (L + 1) * unrecorded V p + (p.todo.length - pos)

/-- The list and the ledger of a run that started from an empty ledger with `hash` alone in
the list, as long as `processLinks` returned no error on the uploaded objects: the links of
every recorded digest are recorded or still to be visited, and so is the root. -/
def Closed (w : Env) (hash : String) (root : List Byte) : Run → Prop
  | .running pos p =>
    (∀ c ∈ p.puts, (processLinks w (NewPush []) c.data).2 = none) →
      (∀ a ∈ p.tracker, ∀ b ∈ objectLinks w a,
          b ∈ p.tracker ∨ EncodeToString b ∈ p.todo.drop pos) ∧
        (root ∈ p.tracker ∨ hash ∈ p.todo.drop pos) ∧
        ∀ s ∈ p.todo.drop pos, s = hash ∨ ∃ d, d.length = 20 ∧ s = EncodeToString d
  | .finished none p =>
    (∀ c ∈ p.puts, (processLinks w (NewPush []) c.data).2 = none) →
      (∀ a ∈ p.tracker, ∀ b ∈ objectLinks w a, b ∈ p.tracker) ∧ root ∈ p.tracker
  | .finished (some _) _ => True

/-! ## Test repositories -/

namespace Scenario

/-- An object of a test repository: its identifier, kind and payload, and what the link
parser answers on its canonical form (the multihashes of its links, or a parse error). -/
structure Obj where
  id : List Byte
  typ : ObjectType
  payload : List Byte
  links : Except String (List (List Byte))

/-- The bytes `doWork` builds for a test object. -/
def Obj.canonical (o : Obj) : List Byte := encodeObject o.typ o.payload.length o.payload

/-- A SHA-1 multihash: code `0x11`, length `0x14`, digest. -/
def mhSha1 (d : List Byte) : List Byte := 0x11 :: 0x14 :: d

/-- A multihash decoder that knows SHA-1 only: the digest, when the code is `0x11` and the
declared length, 20, is the real one. -/
def mhDecode : List Byte → Except String (List Byte)
  | code :: len :: d =>
    if code.val = 0x11 ∧ len.val = 20 ∧ d.length = 20 then .ok d
    else .error "multihash: unsupported or inconsistent"
  | _ => .error "multihash too short"

/-- A test environment over a list of objects: a ledger without I/O errors, an honest remote
store that answers the CID of the object whose canonical form it is given, no observer. -/
def mkEnv (objs : List Obj) : Env :=
  { hasEntryErr := fun _ => none
    addEntryErr := fun _ => none
    CidFromHex := fun hash => .ok ("cid-" ++ hash)
    EncodedObject := fun h =>
      match objs.find? (fun o => decide (o.id = h)) with
      | some o => .ok ⟨o.typ, o.payload.length, .ok (.ok o.payload)⟩
      | none => .error "object not found"
    DagPut := fun _ raw =>
      match objs.find? (fun o => decide (o.canonical = raw)) with
      | some o => .ok ("cid-" ++ EncodeToString o.id)
      | none => .error "dag put: unknown object"
    NewNode := none
    ParseObjectFromBuffer := fun raw =>
      match objs.find? (fun o => decide (o.canonical = raw)) with
      | some o => o.links
      | none => .error "unrecognized object"
    mhDecode := mhDecode }

/-- Identifier of the root commit C1. -/
def idC1 : List Byte := List.replicate 20 0xc1

/-- Identifier of the parent commit C2. -/
def idC2 : List Byte := List.replicate 20 0xc2

/-- Identifier of the tree T1. -/
def idT1 : List Byte := List.replicate 20 0xa1

/-- Identifier of the blob B1. -/
def idB1 : List Byte := List.replicate 20 0xb1

/-- Identifier of the blob B2. -/
def idB2 : List Byte := List.replicate 20 0xb2

/-- The end-to-end repository: commit C1 with tree T1 and parent C2, commit C2 with tree T1,
tree T1 with blobs B1 and B2. Links in the order tree, then parents. -/
def e2e : List Obj :=
  [⟨idC1, .CommitObject, strBytes "C1", .ok [mhSha1 idT1, mhSha1 idC2]⟩,
   ⟨idC2, .CommitObject, strBytes "C2", .ok [mhSha1 idT1]⟩,
   ⟨idT1, .TreeObject, strBytes "T1", .ok [mhSha1 idB1, mhSha1 idB2]⟩,
   ⟨idB1, .BlobObject, strBytes "B1", .ok []⟩,
   ⟨idB2, .BlobObject, strBytes "B2", .ok []⟩]

/-- The same repository with the links of C1 in the order parent, then tree: T1 is then
enqueued twice. -/
def e2eParentFirst : List Obj :=
  [⟨idC1, .CommitObject, strBytes "C1", .ok [mhSha1 idC2, mhSha1 idT1]⟩,
   ⟨idC2, .CommitObject, strBytes "C2", .ok [mhSha1 idT1]⟩,
   ⟨idT1, .TreeObject, strBytes "T1", .ok [mhSha1 idB1, mhSha1 idB2]⟩,
   ⟨idB1, .BlobObject, strBytes "B1", .ok []⟩,
   ⟨idB2, .BlobObject, strBytes "B2", .ok []⟩]

/-- The payload of a tree whose single entry, mode `100644` and name `a`, is cut inside its
20-byte digest: 10 bytes are left where 20 are due. -/
def cutTreePayload : List Byte := strBytes "100644 a\x00" ++ List.replicate 10 0xb1

/-- A repository with a damaged tree. Commit C1 has tree T1 and parent C2, commit C2 has tree
T1; the commits are written out in the format of git, and T1 is the tree with the cut
entry. On the canonical form of T1 the parser fails while reading the digest of the entry
(`io.ReadFull` meets the end of the data: `unexpected EOF`). -/
def treeCut : List Obj :=
  [⟨idC1, .CommitObject,
      strBytes ("tree " ++ EncodeToString idT1 ++ "\nparent " ++ EncodeToString idC2 ++
        "\nauthor A <a@b.c> 1 +0000\ncommitter A <a@b.c> 1 +0000\n\nfirst\n"),
      .ok [mhSha1 idT1, mhSha1 idC2]⟩,
   ⟨idC2, .CommitObject,
      strBytes ("tree " ++ EncodeToString idT1 ++
        "\nauthor A <a@b.c> 1 +0000\ncommitter A <a@b.c> 1 +0000\n\nsecond\n"),
      .ok [mhSha1 idT1]⟩,
   ⟨idT1, .TreeObject, cutTreePayload, .error "unexpected EOF"⟩]

/-- The repository where the first link of T1 carries a multihash that `mh.Decode` rejects,
the second link being B2. -/
def treeBadLink : List Obj :=
  [⟨idC1, .CommitObject, strBytes "C1", .ok [mhSha1 idT1]⟩,
   ⟨idT1, .TreeObject, strBytes "T1", .ok [[0x11], mhSha1 idB2]⟩,
   ⟨idB2, .BlobObject, strBytes "B2", .ok []⟩]

/-- A repository whose only object has a kind outside commit, tree, blob, tag. -/
def deltaOnly : List Obj :=
  [⟨idB1, .OFSDeltaObject, strBytes "hello", .error "unrecognized object type"⟩]

/-- A remote store that answers an address of its own, and a ledger whose writes fail. -/
def envWrongAddress (addFails : Bool) : Env :=
  { mkEnv e2e with
    DagPut := fun _ _ => .ok "cid-elsewhere"
    addEntryErr := fun _ => if addFails then some "ledger: disk full" else none }

/-- The end-to-end repository over a ledger whose lookup of B1 fails with an I/O error. -/
def envLookupFails : Env :=
  { mkEnv e2e with
    hasEntryErr := fun d => if d = idB1 then some "ledger: read failed" else none }

/-- A repository with the blob `hello`. -/
def helloBlob : List Obj := [⟨idB1, .BlobObject, strBytes "hello", .ok []⟩]

/-- The call made on C1 in the run against the store that answers `cid-elsewhere`. -/
def wrongCall : PutCall :=
  ⟨idC1, strBytes "commit 2\x00C1", [], "cid-c1c1c1c1c1c1c1c1c1c1c1c1c1c1c1c1c1c1c1c1",
    .ok "cid-elsewhere"⟩

/-- Whether the links of a test object are at most `L` and decode into `U`. -/
def linksWithin (U : List (List Byte)) (L : Nat) (o : Obj) : Bool :=
  match o.links with
  | .ok links =>
    decide (links.length ≤ L) &&
      links.all (fun m =>
        match mhDecode m with
        | .ok d => decide (d ∈ U)
        | .error _ => true)
  | .error _ => true

end Scenario

open Scenario

/-! ## Basic facts about one turn of the loop -/

theorem hasEntry_true {w : Env} {p : Push} {sha : List Byte} (h : HasEntry w p sha = .ok true) :
    sha ∈ p.tracker := by
  unfold HasEntry at h
  split at h
  · cases h
  · simpa using h

theorem hasEntry_false {w : Env} {p : Push} {sha : List Byte} (h : HasEntry w p sha = .ok false) :
    sha ∉ p.tracker := by
  unfold HasEntry at h
  split at h
  · cases h
  · simpa using h

theorem processLinksLoop_appended (w : Env) (links : List (List Byte)) (p : Push) :
    ∃ ds, Appended w links p (processLinksLoop w links p).1 ds := by
  induction links generalizing p with
  | nil => exact ⟨[], by constructor <;> simp [processLinksLoop]⟩
  | cons m links ih =>
    unfold processLinksLoop
    split
    · exact ⟨[], by constructor <;> simp⟩
    · rename_i digest hdec
      split
      · exact ⟨[], by constructor <;> simp⟩
      · obtain ⟨ds, h⟩ := ih p
        refine ⟨ds, ⟨h.done, h.tracker, h.puts, h.adds, h.todo, h.todoc, h.bound, ?_, ?_⟩⟩
        · have := h.length
          simp only [List.length_cons]
          omega
        · intro d hd
          obtain ⟨h1, m', hm', h2⟩ := h.fresh d hd
          exact ⟨h1, m', List.mem_cons_of_mem _ hm', h2⟩
      · rename_i hhas
        obtain ⟨ds, h⟩ := ih { p with todoc := (p.todoc + 1) % 2 ^ 64,
                                      todo := p.todo ++ [EncodeToString digest] }
        refine ⟨digest :: ds, ⟨h.done, h.tracker, h.puts, h.adds, ?_, ?_, ?_, ?_, ?_⟩⟩
        · rw [h.todo]; simp
        · rw [h.todoc]; simp only [List.length_cons]; omega
        · intro _
          exact h.bound (Nat.mod_lt _ (by norm_num))
        · have := h.length
          simp only [List.length_cons]
          omega
        · intro d hd
          rcases List.mem_cons.1 hd with rfl | hd
          · exact ⟨hasEntry_false hhas, m, List.mem_cons_self _ _, hdec⟩
          · obtain ⟨h1, m', hm', h2⟩ := h.fresh d hd
            exact ⟨h1, m', List.mem_cons_of_mem _ hm', h2⟩

theorem processLinks_appended (w : Env) (p : Push) (object : List Byte) :
    ∃ ds, Appended w ((w.ParseObjectFromBuffer object).toOption.getD []) p
      (processLinks w p object).1 ds := by
  unfold processLinks
  split
  · exact ⟨[], by constructor <;> simp⟩
  · rename_i links h
    simpa [h, Except.toOption] using processLinksLoop_appended w links p

@[simp]
theorem afterPut_todoc (w : Env) (p : Push) (sha : List Byte) (expectedCid : String)
    (raw : List Byte) : (afterPut w p sha expectedCid raw).todoc = p.todoc := rfl

@[simp]
theorem afterPut_todo (w : Env) (p : Push) (sha : List Byte) (expectedCid : String)
    (raw : List Byte) : (afterPut w p sha expectedCid raw).todo = p.todo := rfl

@[simp]
theorem afterPut_tracker (w : Env) (p : Push) (sha : List Byte) (expectedCid : String)
    (raw : List Byte) : (afterPut w p sha expectedCid raw).tracker = p.tracker := rfl

@[simp]
theorem afterPut_adds (w : Env) (p : Push) (sha : List Byte) (expectedCid : String)
    (raw : List Byte) : (afterPut w p sha expectedCid raw).adds = p.adds := rfl

@[simp]
theorem afterPut_done (w : Env) (p : Push) (sha : List Byte) (expectedCid : String)
    (raw : List Byte) : (afterPut w p sha expectedCid raw).done = (p.done + 1) % 2 ^ 64 := rfl

@[simp]
theorem afterPut_puts (w : Env) (p : Push) (sha : List Byte) (expectedCid : String)
    (raw : List Byte) : (afterPut w p sha expectedCid raw).puts = p.puts ++ [⟨sha, raw, p.tracker, expectedCid, w.DagPut (p.puts.map PutCall.data) raw⟩] := rfl

@[simp]
theorem afterAdd_todoc (w : Env) (p : Push) (sha : List Byte) (expectedCid : String)
    (raw : List Byte) : (afterAdd w p sha expectedCid raw).todoc = p.todoc := rfl

@[simp]
theorem afterAdd_todo (w : Env) (p : Push) (sha : List Byte) (expectedCid : String)
    (raw : List Byte) : (afterAdd w p sha expectedCid raw).todo = p.todo := rfl

@[simp]
theorem afterAdd_tracker (w : Env) (p : Push) (sha : List Byte) (expectedCid : String)
    (raw : List Byte) : (afterAdd w p sha expectedCid raw).tracker = p.tracker := rfl

@[simp]
theorem afterAdd_adds (w : Env) (p : Push) (sha : List Byte) (expectedCid : String)
    (raw : List Byte) : (afterAdd w p sha expectedCid raw).adds = p.adds ++ [sha] := rfl

@[simp]
theorem afterAdd_done (w : Env) (p : Push) (sha : List Byte) (expectedCid : String)
    (raw : List Byte) : (afterAdd w p sha expectedCid raw).done = (p.done + 1) % 2 ^ 64 := rfl

@[simp]
theorem afterAdd_puts (w : Env) (p : Push) (sha : List Byte) (expectedCid : String)
    (raw : List Byte) : (afterAdd w p sha expectedCid raw).puts = p.puts ++ [⟨sha, raw, p.tracker, expectedCid, w.DagPut (p.puts.map PutCall.data) raw⟩] := rfl

@[simp]
theorem afterRecord_todoc (w : Env) (p : Push) (sha : List Byte) (expectedCid : String)
    (raw : List Byte) : (afterRecord w p sha expectedCid raw).todoc = p.todoc := rfl

@[simp]
theorem afterRecord_todo (w : Env) (p : Push) (sha : List Byte) (expectedCid : String)
    (raw : List Byte) : (afterRecord w p sha expectedCid raw).todo = p.todo := rfl

@[simp]
theorem afterRecord_tracker (w : Env) (p : Push) (sha : List Byte) (expectedCid : String)
    (raw : List Byte) : (afterRecord w p sha expectedCid raw).tracker = sha :: p.tracker := rfl

@[simp]
theorem afterRecord_adds (w : Env) (p : Push) (sha : List Byte) (expectedCid : String)
    (raw : List Byte) : (afterRecord w p sha expectedCid raw).adds = p.adds ++ [sha] := rfl

@[simp]
theorem afterRecord_done (w : Env) (p : Push) (sha : List Byte) (expectedCid : String)
    (raw : List Byte) : (afterRecord w p sha expectedCid raw).done = (p.done + 1) % 2 ^ 64 := rfl

@[simp]
theorem afterRecord_puts (w : Env) (p : Push) (sha : List Byte) (expectedCid : String)
    (raw : List Byte) : (afterRecord w p sha expectedCid raw).puts = p.puts ++ [⟨sha, raw, p.tracker, expectedCid, w.DagPut (p.puts.map PutCall.data) raw⟩] := rfl

/-- The five ways out of `upload`. -/
theorem upload_cases (w : Env) (p : Push) (sha : List Byte) (expectedCid : String)
    (raw : List Byte) :
    (∃ e, w.DagPut (p.puts.map PutCall.data) raw = .error e ∧
        upload w p sha expectedCid raw = (afterPut w p sha expectedCid raw, some ("push: " ++ e)))
    ∨ (∃ res e, w.DagPut (p.puts.map PutCall.data) raw = .ok res ∧ w.addEntryErr sha = some e ∧
        upload w p sha expectedCid raw = (afterAdd w p sha expectedCid raw, some ("push: " ++ e)))
    ∨ (∃ res, w.DagPut (p.puts.map PutCall.data) raw = .ok res ∧ w.addEntryErr sha = none ∧
        expectedCid ≠ res ∧
        upload w p sha expectedCid raw =
          (afterRecord w p sha expectedCid raw, some (mismatchMsg expectedCid res)))
    ∨ (∃ e, w.DagPut (p.puts.map PutCall.data) raw = .ok expectedCid ∧ w.addEntryErr sha = none ∧
        upload w p sha expectedCid raw = (afterRecord w p sha expectedCid raw, some e))
    ∨ (w.DagPut (p.puts.map PutCall.data) raw = .ok expectedCid ∧ w.addEntryErr sha = none ∧
        upload w p sha expectedCid raw =
          ((processLinks w (afterRecord w p sha expectedCid raw) raw).1, none)) := by
  unfold upload
  simp only []
  split
  · rename_i e h
    exact Or.inl ⟨e, h, rfl⟩
  · rename_i res h
    cases he : w.addEntryErr sha with
    | some e =>
      refine Or.inr (Or.inl ⟨res, e, h, rfl, ?_⟩)
      simp only [AddEntry, he]
      rfl
    | none =>
      simp only [AddEntry, he]
      split
      · rename_i hne
        exact Or.inr (Or.inr (Or.inl ⟨res, h, trivial, hne, rfl⟩))
      · rename_i heq
        have heq : expectedCid = res := by simpa using heq
        subst heq
        split
        · split
          · rename_i e _
            exact Or.inr (Or.inr (Or.inr (Or.inl ⟨e, h, trivial, rfl⟩)))
          · exact Or.inr (Or.inr (Or.inr (Or.inr ⟨h, trivial, rfl⟩)))
        · exact Or.inr (Or.inr (Or.inr (Or.inr ⟨h, trivial, rfl⟩)))

/-- The three ways through `body`: an error before anything is done, an entry that is
already in the ledger, or an upload. -/
theorem body_cases (w : Env) (p : Push) (hash : String) :
    (∃ e, body w p hash = (p, some e))
    ∨ (∃ sha, DecodeString hash = (sha, none) ∧ sha ∈ p.tracker ∧
        body w p hash = ({ p with todoc := dec64 p.todoc }, none))
    ∨ (∃ sha expectedCid obj raw, DecodeString hash = (sha, none) ∧ sha ∉ p.tracker ∧
        w.CidFromHex hash = .ok expectedCid ∧ w.EncodedObject (NewHash hash) = .ok obj ∧
        obj.reader = .ok (.ok raw) ∧
        body w p hash = upload w p sha expectedCid (encodeObject obj.typ obj.size raw)) := by
  unfold body
  split
  · exact Or.inl ⟨_, rfl⟩
  · rename_i sha hdec
    split
    · exact Or.inl ⟨_, rfl⟩
    · rename_i hhas
      exact Or.inr (Or.inl ⟨sha, hdec, hasEntry_true hhas, rfl⟩)
    · rename_i hhas
      split
      · exact Or.inl ⟨_, rfl⟩
      · rename_i expectedCid hcid
        split
        · exact Or.inl ⟨_, rfl⟩
        · rename_i obj hobj
          split
          · exact Or.inl ⟨_, rfl⟩
          · rename_i rawReader hrd
            split
            · exact Or.inl ⟨_, rfl⟩
            · rename_i raw
              exact Or.inr (Or.inr ⟨sha, expectedCid, obj, raw, hdec, hasEntry_false hhas,
                hcid, hobj, hrd, rfl⟩)

/-- Every way out of `upload` has made exactly one `DagPut` call, on `raw`. -/
theorem upload_puts (w : Env) (p : Push) (sha : List Byte) (expectedCid : String)
    (raw : List Byte) :
    (upload w p sha expectedCid raw).1.puts =
      p.puts ++ [⟨sha, raw, p.tracker, expectedCid, w.DagPut (p.puts.map PutCall.data) raw⟩] := by
  rcases upload_cases w p sha expectedCid raw with
    ⟨e, _, h⟩ | ⟨res, e, _, _, h⟩ | ⟨res, _, _, _, h⟩ | ⟨e, _, _, h⟩ | ⟨_, _, h⟩
  · rw [h]; rfl
  · rw [h]; rfl
  · rw [h]; rfl
  · rw [h]; rfl
  · rw [h]
    obtain ⟨ds, hds⟩ := processLinks_appended w (afterRecord w p sha expectedCid raw) raw
    rw [hds.puts]; rfl

/-- When `upload` lets the loop go on, the digest has been recorded. -/
theorem upload_tracker_of_ok (w : Env) (p : Push) (sha : List Byte) (expectedCid : String)
    (raw : List Byte) (h : (upload w p sha expectedCid raw).2 = none) :
    (upload w p sha expectedCid raw).1.tracker = sha :: p.tracker := by
  rcases upload_cases w p sha expectedCid raw with
    ⟨e, _, h'⟩ | ⟨res, e, _, _, h'⟩ | ⟨res, _, _, _, h'⟩ | ⟨e, _, _, h'⟩ | ⟨_, _, h'⟩
  · rw [h'] at h; cases h
  · rw [h'] at h; cases h
  · rw [h'] at h; cases h
  · rw [h'] at h; cases h
  · rw [h']
    obtain ⟨ds, hds⟩ := processLinks_appended w (afterRecord w p sha expectedCid raw) raw
    rw [hds.tracker]; rfl

/-- The possible turns of the loop from a running state. -/
theorem step_running (w : Env) (pos : Nat) (p : Push) :
    (p.todo.get? pos = none ∧ step w (.running pos p) = .finished none p)
    ∨ (∃ hash, p.todo.get? pos = some hash ∧
        ((∃ e, (body w p hash).2 = some e ∧
            step w (.running pos p) = .finished (some e) (body w p hash).1)
         ∨ ((body w p hash).2 = none ∧
            step w (.running pos p) = .running (pos + 1) (body w p hash).1))) := by
  simp only [step]
  split
  · rename_i hget
    exact Or.inl ⟨hget, rfl⟩
  · rename_i hash hget
    refine Or.inr ⟨hash, hget, ?_⟩
    split
    · rename_i q e hb
      exact Or.inl ⟨e, by rw [hb], by rw [hb]⟩
    · rename_i q hb
      exact Or.inr ⟨by rw [hb], by rw [hb]⟩

theorem step_finished (w : Env) (err : Option String) (p : Push) :
    step w (.finished err p) = .finished err p := rfl

theorem stepN_finished (w : Env) (n : Nat) (err : Option String) (p : Push) :
    stepN w n (.finished err p) = .finished err p := by
  induction n with
  | zero => rfl
  | succ n ih => simpa [stepN, step_finished] using ih

theorem stepN_add (w : Env) (m n : Nat) (r : Run) :
    stepN w (m + n) r = stepN w n (stepN w m r) := by
  induction m generalizing r with
  | zero => simp [stepN]
  | succ m ih => rw [Nat.add_right_comm, stepN, ih]; rfl

/-- A property kept by every turn of the loop holds along the whole run. -/
theorem stepN_invariant (w : Env) (I : Run → Prop) (hstep : ∀ r, I r → I (step w r))
    (n : Nat) (r : Run) (h : I r) : I (stepN w n r) := by
  induction n generalizing r with
  | zero => exact h
  | succ n ih => exact ih (step w r) (hstep r h)

/-! ## No upload of a recorded digest -/

theorem putsFresh_push {r : Run} (h : PutsFresh r) :
    (∀ c ∈ r.push.puts, c.sha ∉ c.ledger) ∧ (r.push.puts.map PutCall.sha).Nodup := by
  cases r with
  | running pos p => exact ⟨h.1, h.2.1⟩
  | finished err p => exact h

theorem putsFresh_upload {w : Env} {p : Push} {sha : List Byte} (expectedCid : String)
    (raw : List Byte) (h1 : ∀ c ∈ p.puts, c.sha ∉ c.ledger)
    (h2 : (p.puts.map PutCall.sha).Nodup) (h3 : ∀ c ∈ p.puts, c.sha ∈ p.tracker)
    (hsha : sha ∉ p.tracker) :
    (∀ c ∈ (upload w p sha expectedCid raw).1.puts, c.sha ∉ c.ledger) ∧
      ((upload w p sha expectedCid raw).1.puts.map PutCall.sha).Nodup := by
  rw [upload_puts]
  constructor
  · intro c hc
    rcases List.mem_append.1 hc with hc | hc
    · exact h1 c hc
    · rw [List.mem_singleton.1 hc]; exact hsha
  · rw [List.map_append, List.nodup_append]
    refine ⟨h2, by simp, ?_⟩
    intro a ha hb
    simp only [List.map_cons, List.map_nil, List.mem_singleton] at hb
    obtain ⟨c, hc, rfl⟩ := List.mem_map.1 ha
    exact hsha (hb ▸ h3 c hc)

theorem putsFresh_step (w : Env) (r : Run) (h : PutsFresh r) : PutsFresh (step w r) := by
  cases r with
  | finished err p => exact h
  | running pos p =>
    obtain ⟨h1, h2, h3⟩ := h
    rcases step_running w pos p with ⟨_, hs⟩ | ⟨hash, _, hs⟩
    · rw [hs]; exact ⟨h1, h2⟩
    · rcases body_cases w p hash with ⟨e, hb⟩ | ⟨sha, _, _, hb⟩ |
        ⟨sha, expectedCid, obj, raw, _, hsha, _, _, _, hb⟩
      · rcases hs with ⟨e', _, hs⟩ | ⟨hn, _⟩
        · rw [hs, hb]; exact ⟨h1, h2⟩
        · rw [hb] at hn; cases hn
      · rcases hs with ⟨e', he, _⟩ | ⟨_, hs⟩
        · rw [hb] at he; cases he
        · rw [hs, hb]; exact ⟨h1, h2, h3⟩
      · have hg := putsFresh_upload (w := w) expectedCid (encodeObject obj.typ obj.size raw)
          h1 h2 h3 hsha
        rcases hs with ⟨e', _, hs⟩ | ⟨hn, hs⟩
        · rw [hs, hb]; exact hg
        · rw [hs, hb]
          refine ⟨hg.1, hg.2, ?_⟩
          rw [hb] at hn
          rw [upload_tracker_of_ok w p sha expectedCid _ hn, upload_puts]
          intro c hc
          rcases List.mem_append.1 hc with hc | hc
          · exact List.mem_cons_of_mem _ (h3 c hc)
          · rw [List.mem_singleton.1 hc]; exact List.mem_cons_self _ _

/-! ## The counters -/

theorem get?_lt {α : Type} {l : List α} {n : Nat} {a : α} (h : l.get? n = some a) :
    n < l.length := by
  by_contra hn
  rw [List.get?_eq_none.2 (by omega)] at h
  cases h

theorem countersOk_step (w : Env) (r : Run) (h : CountersOk r) : CountersOk (step w r) := by
  cases r with
  | finished err p => exact h
  | running pos p =>
    simp only [CountersOk] at h
    rcases step_running w pos p with ⟨hget, hs⟩ | ⟨hash, hget, hs⟩
    · rw [hs]
      simp only [CountersOk]
      intro hlen
      obtain ⟨h1, h2, h3⟩ := h hlen
      have := List.get?_eq_none.1 hget
      exact ⟨by omega, fun _ => by omega⟩
    · have hpos := get?_lt hget
      rcases body_cases w p hash with ⟨e, hb⟩ | ⟨sha, _, _, hb⟩ |
        ⟨sha, expectedCid, obj, raw, _, hsha, _, _, _, hb⟩
      · rw [hb] at hs
        rcases hs with ⟨e', _, hs⟩ | ⟨hn, _⟩
        · rw [hs]
          simp only [CountersOk]
          intro hlen
          obtain ⟨h1, h2, h3⟩ := h hlen
          exact ⟨by omega, fun hne => by cases hne⟩
        · cases hn
      · rw [hb] at hs
        rcases hs with ⟨e', he, _⟩ | ⟨_, hs⟩
        · cases he
        · rw [hs]
          simp only [CountersOk]
          intro hlen
          obtain ⟨h1, h2, h3⟩ := h hlen
          have hd : dec64 p.todoc = p.todoc - 1 := by
            unfold dec64
            rw [if_neg (by omega)]
          rw [hd]
          exact ⟨by omega, by omega, by omega⟩
      · rw [hb] at hs
        have hmod : p.todo.length < 2 ^ 64 → (p.done + 1) % 2 ^ 64 = p.done + 1 := by
          intro hlen
          obtain ⟨h1, h2, h3⟩ := h hlen
          exact Nat.mod_eq_of_lt (by omega)
        rcases upload_cases w p sha expectedCid (encodeObject obj.typ obj.size raw) with
          ⟨e, _, hu⟩ | ⟨res, e, _, _, hu⟩ | ⟨res, _, _, _, hu⟩ | ⟨e, _, _, hu⟩ | ⟨_, _, hu⟩
        · rw [hu] at hs
          rcases hs with ⟨e', _, hs⟩ | ⟨hn, _⟩
          · rw [hs]
            simp only [CountersOk, afterPut_done, afterPut_todoc, afterPut_todo]
            intro hlen
            obtain ⟨h1, h2, h3⟩ := h hlen
            rw [hmod hlen]
            exact ⟨by omega, fun hne => by cases hne⟩
          · cases hn
        · rw [hu] at hs
          rcases hs with ⟨e', _, hs⟩ | ⟨hn, _⟩
          · rw [hs]
            simp only [CountersOk, afterAdd_done, afterAdd_todoc, afterAdd_todo]
            intro hlen
            obtain ⟨h1, h2, h3⟩ := h hlen
            rw [hmod hlen]
            exact ⟨by omega, fun hne => by cases hne⟩
          · cases hn
        · rw [hu] at hs
          rcases hs with ⟨e', _, hs⟩ | ⟨hn, _⟩
          · rw [hs]
            simp only [CountersOk, afterRecord_done, afterRecord_todoc, afterRecord_todo]
            intro hlen
            obtain ⟨h1, h2, h3⟩ := h hlen
            rw [hmod hlen]
            exact ⟨by omega, fun hne => by cases hne⟩
          · cases hn
        · rw [hu] at hs
          rcases hs with ⟨e', _, hs⟩ | ⟨hn, _⟩
          · rw [hs]
            simp only [CountersOk, afterRecord_done, afterRecord_todoc, afterRecord_todo]
            intro hlen
            obtain ⟨h1, h2, h3⟩ := h hlen
            rw [hmod hlen]
            exact ⟨by omega, fun hne => by cases hne⟩
          · cases hn
        · rw [hu] at hs
          rcases hs with ⟨e', he, _⟩ | ⟨_, hs⟩
          · cases he
          · rw [hs]
            obtain ⟨ds, hds⟩ := processLinks_appended w
              (afterRecord w p sha expectedCid (encodeObject obj.typ obj.size raw))
              (encodeObject obj.typ obj.size raw)
            simp only [CountersOk]
            have hdone := hds.done
            have htodo := hds.todo
            have htodoc := hds.todoc
            have hbound := hds.bound
            simp only [afterRecord_done] at hdone
            simp only [afterRecord_todo] at htodo
            simp only [afterRecord_todoc] at htodoc hbound
            rw [hdone, htodo]
            simp only [List.length_append, List.length_map]
            intro hlen
            obtain ⟨h1, h2, h3⟩ := h (by omega)
            rw [hmod (by omega)]
            have hq := hbound (by omega)
            rw [Nat.mod_eq_of_lt hq, Nat.mod_eq_of_lt (by omega)] at htodoc
            exact ⟨by omega, by omega, by omega⟩

/-! ## Claims on the ledger and the uploads -/

/-- C1: in any run of `PushHash`/`doWork` (from a state whose upload trace is empty, over any
ledger, any stale list and any object graph, observed after any number of loop turns),
`DagPut` is never called for a digest that is in the ledger at that moment, and no digest is
handed to `DagPut` twice. -/
theorem dagPut_never_on_recorded_digest (w : Env) (fuel : Nat) (p : Push) (hash : String)
    (hp : p.puts = []) :
    (∀ c ∈ (PushHash w fuel p hash).push.puts, c.sha ∉ c.ledger) ∧
      ((PushHash w fuel p hash).push.puts.map PutCall.sha).Nodup := by
  apply putsFresh_push
  apply stepN_invariant w PutsFresh (putsFresh_step w)
  simp [PutsFresh, hp]

theorem dagPut_never_on_recorded_digest_witness :
    (NewPush []).puts = [] ∧
      ((∀ c ∈ (PushHash (mkEnv e2eParentFirst) 7 (NewPush []) (EncodeToString idC1)).push.puts,
          c.sha ∉ c.ledger) ∧
        ((PushHash (mkEnv e2eParentFirst) 7 (NewPush [])
          (EncodeToString idC1)).push.puts.map PutCall.sha).Nodup) :=
  ⟨rfl, dagPut_never_on_recorded_digest (mkEnv e2eParentFirst) 7 (NewPush [])
    (EncodeToString idC1) rfl⟩

/-- C10: for the first `PushHash` on a freshly constructed `Push`, as long as the list is
shorter than `2 ^ 64`: at every loop turn `todoc = done + (entries not yet visited)`, so
`done ≤ todoc`, `todoc` is positive whenever an entry is about to be visited (the decrement
does not wrap), and once a value was sent on `out`, `done ≤ todoc`, with `done = todoc` when
that value is `nil`. -/
theorem counters_invariant (w : Env) (tracker : Tracker) (hash : String) (fuel : Nat)
    (hlen : (PushHash w fuel (NewPush tracker) hash).push.todo.length < 2 ^ 64) :
    match PushHash w fuel (NewPush tracker) hash with
    | .running pos p =>
      p.todoc = p.done + (p.todo.length - pos) ∧ p.done ≤ p.todoc ∧
        (pos < p.todo.length → 0 < p.todoc ∧ dec64 p.todoc + 1 = p.todoc)
    | .finished err p => p.done ≤ p.todoc ∧ (err = none → p.done = p.todoc) := by
  have h : CountersOk (PushHash w fuel (NewPush tracker) hash) := by
    apply stepN_invariant w CountersOk (countersOk_step w)
    simp [CountersOk, NewPush]
  revert hlen h
  generalize PushHash w fuel (NewPush tracker) hash = r
  intro hlen h
  cases r with
  | finished err p => exact h hlen
  | running pos p =>
    obtain ⟨h1, h2, h3⟩ := h hlen
    refine ⟨by omega, by omega, fun hpos => ?_⟩
    have h0 : 0 < p.todoc := by omega
    refine ⟨h0, ?_⟩
    unfold dec64
    rw [if_neg (by omega)]
    omega

theorem counters_invariant_witness :
    (PushHash (mkEnv e2eParentFirst) 3 (NewPush []) (EncodeToString idC1)).push.todo.length
        < 2 ^ 64 ∧
      (match PushHash (mkEnv e2eParentFirst) 3 (NewPush []) (EncodeToString idC1) with
      | .running pos p =>
        p.todoc = p.done + (p.todo.length - pos) ∧ p.done ≤ p.todoc ∧
          (pos < p.todo.length → 0 < p.todoc ∧ dec64 p.todoc + 1 = p.todoc)
      | .finished err p => p.done ≤ p.todoc ∧ (err = none → p.done = p.todoc)) :=
  ⟨by decide, counters_invariant (mkEnv e2eParentFirst) [] (EncodeToString idC1) 3 (by decide)⟩

/-! ## The end-to-end scenario -/

/-- C9, as stated, fails: in the end-to-end scenario the run does not make 4 `DagPut` calls
and does not end with the counters at 4 and 4. -/
theorem e2e_not_four :
    (PushHash (mkEnv e2e) 6 (NewPush []) (EncodeToString idC1)).signal = some none ∧
      ¬ ((PushHash (mkEnv e2e) 6 (NewPush []) (EncodeToString idC1)).push.puts.length = 4 ∧
        (PushHash (mkEnv e2e) 6 (NewPush []) (EncodeToString idC1)).push.done = 4 ∧
        (PushHash (mkEnv e2e) 6 (NewPush []) (EncodeToString idC1)).push.todoc = 4) := by
  decide

/-- C9, amended: in the end-to-end scenario with an empty ledger the run of `PushHash(C1)`
succeeds after exactly 5 `DagPut` calls, one for each of C1, T1, C2, B1, B2 (C2 is reachable
and not in the ledger, so it is uploaded; its link to T1 is skipped), and ends with
`done = 5` and `todoc = 5`; the same holds when C1 lists its parent before its tree, T1 then
being enqueued twice and skipped once. -/
theorem e2e_five_uploads :
    ((PushHash (mkEnv e2e) 6 (NewPush []) (EncodeToString idC1)).signal = some none ∧
      (PushHash (mkEnv e2e) 6 (NewPush []) (EncodeToString idC1)).push.puts.map PutCall.sha
        = [idC1, idT1, idC2, idB1, idB2] ∧
      (PushHash (mkEnv e2e) 6 (NewPush []) (EncodeToString idC1)).push.done = 5 ∧
      (PushHash (mkEnv e2e) 6 (NewPush []) (EncodeToString idC1)).push.todoc = 5) ∧
    ((PushHash (mkEnv e2eParentFirst) 7 (NewPush []) (EncodeToString idC1)).signal = some none ∧
      (PushHash (mkEnv e2eParentFirst) 7 (NewPush [])
        (EncodeToString idC1)).push.puts.map PutCall.sha = [idC1, idC2, idT1, idB1, idB2] ∧
      (PushHash (mkEnv e2eParentFirst) 7 (NewPush []) (EncodeToString idC1)).push.done = 5 ∧
      (PushHash (mkEnv e2eParentFirst) 7 (NewPush []) (EncodeToString idC1)).push.todoc = 5) := by
  decide

/-! ## The error of `processLinks` -/

set_option maxRecDepth 100000 in
/-- C7 at a failing input: the tree T1 has its only entry cut inside the digest, so that
`doWork` hands `"tree 19\x00100644 a\x00"` followed by 10 bytes to `DagPut`; on these bytes
the parser fails and `processLinks` returns the error `push/process: unexpected EOF`; and
yet the run goes on to the next entry (C2 is uploaded after T1) and sends `nil` on `out`. -/
theorem processLinks_error_dropped :
    (processLinks (mkEnv treeCut) (NewPush [])
        (strBytes "tree 19\x00100644 a\x00" ++ List.replicate 10 0xb1)).2
        = some "push/process: unexpected EOF" ∧
      (PushHash (mkEnv treeCut) 4 (NewPush []) (EncodeToString idC1)).signal = some none ∧
      (PushHash (mkEnv treeCut) 4 (NewPush []) (EncodeToString idC1)).push.puts.map
        PutCall.sha = [idC1, idT1, idC2] ∧
      ((PushHash (mkEnv treeCut) 4 (NewPush []) (EncodeToString idC1)).push.puts.map
        PutCall.data).get? 1
          = some (strBytes "tree 19\x00100644 a\x00" ++ List.replicate 10 0xb1) := by
  decide

/-- C4 at two failing inputs. From an empty ledger the run sends `nil`, B2 is reachable from
the root C1 through T1, and the ledger has no entry for B2: `processLinks` returned at the
first link of T1, which does not decode, and its error was dropped. The same happens in the
end-to-end repository when the ledger lookup of B1 fails inside `processLinks`: the run sends
`nil` and neither B1 nor B2 is recorded. -/
theorem reachable_not_recorded :
    ((NewPush []).tracker = [] ∧
      (PushHash (mkEnv treeBadLink) 3 (NewPush []) (EncodeToString idC1)).signal = some none ∧
      Reachable (mkEnv treeBadLink) idC1 idB2 ∧
      idB2 ∉ (PushHash (mkEnv treeBadLink) 3 (NewPush []) (EncodeToString idC1)).push.tracker) ∧
    ((PushHash envLookupFails 4 (NewPush []) (EncodeToString idC1)).signal = some none ∧
      Reachable envLookupFails idC1 idB1 ∧ Reachable envLookupFails idC1 idB2 ∧
      (PushHash envLookupFails 4 (NewPush []) (EncodeToString idC1)).push.tracker
        = [idC2, idT1, idC1]) := by
  refine ⟨⟨rfl, by decide, ?_, by decide⟩, by decide, ?_, ?_, by decide⟩
  · have h1 : idT1 ∈ objectLinks (mkEnv treeBadLink) idC1 := by decide
    have h2 : idB2 ∈ objectLinks (mkEnv treeBadLink) idT1 := by decide
    exact Relation.ReflTransGen.tail (Relation.ReflTransGen.single h1) h2
  · have h1 : idT1 ∈ objectLinks envLookupFails idC1 := by decide
    have h2 : idB1 ∈ objectLinks envLookupFails idT1 := by decide
    exact Relation.ReflTransGen.tail (Relation.ReflTransGen.single h1) h2
  · have h1 : idT1 ∈ objectLinks envLookupFails idC1 := by decide
    have h2 : idB2 ∈ objectLinks envLookupFails idT1 := by decide
    exact Relation.ReflTransGen.tail (Relation.ReflTransGen.single h1) h2

/-! ## The bytes handed to `DagPut` -/

theorem strBytes_append (a b : String) : strBytes (a ++ b) = strBytes a ++ strBytes b := by
  simp [strBytes, String.data_append]

theorem encodeObject_of_kindWord {t : ObjectType} {word : String} (h : kindWord t = some word)
    (size : Int) (raw : List Byte) :
    encodeObject t size raw = strBytes word ++ [32] ++ strBytes (toString size) ++ [0] ++ raw := by
  have hs : ∀ s : String, strBytes (s ++ " ") = strBytes s ++ [32] := fun s => by
    rw [strBytes_append]; rfl
  have hz : strBytes "\x00" = [0] := rfl
  cases t <;> simp only [kindWord, Option.some.injEq] at h <;> try cases h
  · show strBytes ("commit " ++ toString size ++ "\x00") ++ raw = _
    rw [strBytes_append, strBytes_append, hz]; rfl
  · show strBytes ("tree " ++ toString size ++ "\x00") ++ raw = _
    rw [strBytes_append, strBytes_append, hz]; rfl
  · show strBytes ("blob " ++ toString size ++ "\x00") ++ raw = _
    rw [strBytes_append, strBytes_append, hz]; rfl
  · show strBytes ("tag " ++ toString size ++ "\x00") ++ raw = _
    rw [strBytes_append, strBytes_append, hz]; rfl

theorem encodeObject_of_kindWord_none {t : ObjectType} (h : kindWord t = none)
    (size : Int) (raw : List Byte) : encodeObject t size raw = raw := by
  cases t <;> first | rfl | cases h

theorem body_eq_upload {w : Env} {p : Push} {hash : String} {sha : List Byte}
    {expectedCid : String} {obj : EncodedObject} {payload : List Byte}
    (hdec : DecodeString hash = (sha, none)) (hhas : HasEntry w p sha = .ok false)
    (hcid : w.CidFromHex hash = .ok expectedCid)
    (hobj : w.EncodedObject (NewHash hash) = .ok obj)
    (hrd : obj.reader = .ok (.ok payload)) :
    body w p hash = upload w p sha expectedCid (encodeObject obj.typ obj.size payload) := by
  unfold body
  simp only [hdec, hhas, hcid, hobj, hrd]

/-- C2: when `doWork` processes a frontier entry (its hex form decodes, it is not in the
ledger, its CID and its object are obtained and read) whose object has kind commit, tree,
blob or tag, declared size `n` and payload `p`, it makes exactly one `DagPut` call, and the
bytes it hands over are the kind word, one space (32), `n` in decimal, one NUL byte (0), then
`p` unchanged. -/
theorem dagPut_bytes_canonical (w : Env) (p : Push) (hash : String) (sha : List Byte)
    (expectedCid : String) (obj : EncodedObject) (payload : List Byte) (word : String)
    (hdec : DecodeString hash = (sha, none)) (hhas : HasEntry w p sha = .ok false)
    (hcid : w.CidFromHex hash = .ok expectedCid)
    (hobj : w.EncodedObject (NewHash hash) = .ok obj)
    (hrd : obj.reader = .ok (.ok payload)) (hkind : kindWord obj.typ = some word) :
    (body w p hash).1.puts.map PutCall.data =
      p.puts.map PutCall.data ++
        [strBytes word ++ [32] ++ strBytes (toString obj.size) ++ [0] ++ payload] := by
  rw [body_eq_upload hdec hhas hcid hobj hrd, upload_puts, encodeObject_of_kindWord hkind]
  simp

theorem dagPut_bytes_canonical_witness :
    (DecodeString (EncodeToString idB1) = (idB1, none) ∧
      HasEntry (mkEnv helloBlob) (NewPush []) idB1 = .ok false ∧
      (mkEnv helloBlob).CidFromHex (EncodeToString idB1)
        = .ok "cid-b1b1b1b1b1b1b1b1b1b1b1b1b1b1b1b1b1b1b1b1" ∧
      (mkEnv helloBlob).EncodedObject (NewHash (EncodeToString idB1))
        = .ok ⟨.BlobObject, 5, .ok (.ok (strBytes "hello"))⟩ ∧
      kindWord .BlobObject = some "blob") ∧
    (body (mkEnv helloBlob) (NewPush []) (EncodeToString idB1)).1.puts.map PutCall.data =
      (NewPush []).puts.map PutCall.data ++
        [strBytes "blob" ++ [32] ++ strBytes (toString (5 : Int)) ++ [0] ++ strBytes "hello"] ∧
    strBytes "blob" ++ [32] ++ strBytes (toString (5 : Int)) ++ [0] ++ strBytes "hello"
      = [98, 108, 111, 98, 32, 53, 0, 104, 101, 108, 108, 111] :=
  ⟨⟨by decide, rfl, rfl, rfl, rfl⟩,
    dagPut_bytes_canonical (mkEnv helloBlob) (NewPush []) (EncodeToString idB1) idB1
      "cid-b1b1b1b1b1b1b1b1b1b1b1b1b1b1b1b1b1b1b1b1" ⟨.BlobObject, 5, .ok (.ok (strBytes "hello"))⟩
      (strBytes "hello") "blob" (by decide) rfl rfl rfl rfl rfl,
    by decide⟩

/-- C6, as stated, fails: an object of kind `OFSDeltaObject` is handed to `DagPut` (its
payload, as it is) and the run sends `nil`. -/
theorem unsupported_kind_uploaded :
    (mkEnv deltaOnly).EncodedObject idB1
        = .ok ⟨.OFSDeltaObject, 5, .ok (.ok (strBytes "hello"))⟩ ∧
      (PushHash (mkEnv deltaOnly) 2 (NewPush []) (EncodeToString idB1)).signal = some none ∧
      (PushHash (mkEnv deltaOnly) 2 (NewPush []) (EncodeToString idB1)).push.puts.map
        PutCall.data = [strBytes "hello"] := by
  refine ⟨rfl, by decide, by decide⟩

/-- C6, amended: for an object whose kind is not one of commit, tree, blob, tag, `doWork`
has no unsupported-kind error: the turn goes on as for any object, with no header put in
front, and `DagPut` is called once, with the payload unchanged. -/
theorem unsupported_kind_payload_unchanged (w : Env) (p : Push) (hash : String)
    (sha : List Byte) (expectedCid : String) (obj : EncodedObject) (payload : List Byte)
    (hdec : DecodeString hash = (sha, none)) (hhas : HasEntry w p sha = .ok false)
    (hcid : w.CidFromHex hash = .ok expectedCid)
    (hobj : w.EncodedObject (NewHash hash) = .ok obj)
    (hrd : obj.reader = .ok (.ok payload)) (hkind : kindWord obj.typ = none) :
    body w p hash = upload w p sha expectedCid payload ∧
      (body w p hash).1.puts.map PutCall.data = p.puts.map PutCall.data ++ [payload] := by
  have h := body_eq_upload hdec hhas hcid hobj hrd
  rw [encodeObject_of_kindWord_none hkind] at h
  refine ⟨h, ?_⟩
  rw [h, upload_puts]
  simp

theorem unsupported_kind_payload_unchanged_witness :
    (DecodeString (EncodeToString idB1) = (idB1, none) ∧
      HasEntry (mkEnv deltaOnly) (NewPush []) idB1 = .ok false ∧
      (mkEnv deltaOnly).EncodedObject (NewHash (EncodeToString idB1))
        = .ok ⟨.OFSDeltaObject, 5, .ok (.ok (strBytes "hello"))⟩ ∧
      kindWord .OFSDeltaObject = none) ∧
    (body (mkEnv deltaOnly) (NewPush []) (EncodeToString idB1) =
        upload (mkEnv deltaOnly) (NewPush []) idB1 "cid-b1b1b1b1b1b1b1b1b1b1b1b1b1b1b1b1b1b1b1b1"
          (strBytes "hello") ∧
      (body (mkEnv deltaOnly) (NewPush []) (EncodeToString idB1)).1.puts.map PutCall.data =
        (NewPush []).puts.map PutCall.data ++ [strBytes "hello"]) :=
  ⟨⟨by decide, rfl, rfl, rfl⟩,
    unsupported_kind_payload_unchanged (mkEnv deltaOnly) (NewPush []) (EncodeToString idB1) idB1
      "cid-b1b1b1b1b1b1b1b1b1b1b1b1b1b1b1b1b1b1b1b1"
      ⟨.OFSDeltaObject, 5, .ok (.ok (strBytes "hello"))⟩ (strBytes "hello")
      (by decide) rfl rfl rfl rfl rfl⟩

/-! ## Address verification -/

theorem verified_old {p : Push} (h : ∀ c ∈ p.puts, c.result = .ok c.expected) {c : PutCall}
    (hc : c ∈ p.puts) {res : String} (hres : c.result = .ok res) (hne : res ≠ c.expected) :
    False := by
  rw [h c hc] at hres
  cases hres
  exact hne rfl

theorem verified_step (w : Env) (r : Run) (h : Verified w r) : Verified w (step w r) := by
  cases r with
  | finished err p => exact h
  | running pos p =>
    simp only [Verified] at h
    rcases step_running w pos p with ⟨_, hs⟩ | ⟨hash, _, hs⟩
    · rw [hs]
      intro c hc res hres hne
      exact (verified_old h hc hres hne).elim
    · rcases body_cases w p hash with ⟨e, hb⟩ | ⟨sha, _, _, hb⟩ |
        ⟨sha, expectedCid, obj, raw, _, hsha, _, _, _, hb⟩
      · rw [hb] at hs
        rcases hs with ⟨e', _, hs⟩ | ⟨hn, _⟩
        · rw [hs]
          intro c hc res hres hne
          exact (verified_old h hc hres hne).elim
        · cases hn
      · rw [hb] at hs
        rcases hs with ⟨e', he, _⟩ | ⟨_, hs⟩
        · cases he
        · rw [hs]; exact h
      · rw [hb] at hs
        rcases upload_cases w p sha expectedCid (encodeObject obj.typ obj.size raw) with
          ⟨e, hput, hu⟩ | ⟨res', e, hput, hadd, hu⟩ | ⟨res', hput, hadd, hdiff, hu⟩ |
          ⟨e, hput, hadd, hu⟩ | ⟨hput, hadd, hu⟩
        · rw [hu] at hs
          rcases hs with ⟨e', he', hs⟩ | ⟨hn, _⟩
          · rw [hs]
            intro c hc res hres hne
            simp only [afterPut_puts] at hc
            rcases List.mem_append.1 hc with hc | hc
            · exact (verified_old h hc hres hne).elim
            · rw [List.mem_singleton.1 hc] at hres
              simp only [hput] at hres
              cases hres
          · cases hn
        · rw [hu] at hs
          rcases hs with ⟨e', he', hs⟩ | ⟨hn, _⟩
          · rw [hs]
            intro c hc res hres hne
            simp only [afterAdd_puts] at hc ⊢
            rcases List.mem_append.1 hc with hc | hc
            · exact (verified_old h hc hres hne).elim
            · have hc := List.mem_singleton.1 hc
              subst hc
              cases he'
              exact ⟨by simp, Or.inr ⟨e, hadd, rfl⟩⟩
          · cases hn
        · rw [hu] at hs
          rcases hs with ⟨e', he', hs⟩ | ⟨hn, _⟩
          · rw [hs]
            intro c hc res hres hne
            simp only [afterRecord_puts] at hc ⊢
            rcases List.mem_append.1 hc with hc | hc
            · exact (verified_old h hc hres hne).elim
            · have hc := List.mem_singleton.1 hc
              subst hc
              simp only [hput, Except.ok.injEq] at hres
              subst hres
              cases he'
              exact ⟨by simp, Or.inl ⟨hadd, rfl⟩⟩
          · cases hn
        · rw [hu] at hs
          rcases hs with ⟨e', he', hs⟩ | ⟨hn, _⟩
          · rw [hs]
            intro c hc res hres hne
            simp only [afterRecord_puts] at hc
            rcases List.mem_append.1 hc with hc | hc
            · exact (verified_old h hc hres hne).elim
            · have hc := List.mem_singleton.1 hc
              subst hc
              simp only [hput, Except.ok.injEq] at hres
              exact (hne hres.symm).elim
          · cases hn
        · rw [hu] at hs
          rcases hs with ⟨e', he, _⟩ | ⟨_, hs⟩
          · cases he
          · rw [hs]
            obtain ⟨ds, hds⟩ := processLinks_appended w
              (afterRecord w p sha expectedCid (encodeObject obj.typ obj.size raw))
              (encodeObject obj.typ obj.size raw)
            simp only [Verified]
            rw [hds.puts]
            intro c hc
            simp only [afterRecord_puts] at hc
            rcases List.mem_append.1 hc with hc | hc
            · exact h c hc
            · rw [List.mem_singleton.1 hc]
              exact hput

theorem recorded_grow {w : Env} {p q : Push} {c : PutCall}
    (h : Recorded w (.running 0 p)) (hputs : q.puts = p.puts ++ [c])
    (hadds : q.adds = p.adds ∨ (q.adds = p.adds ++ [c.sha] ∧ ∃ res, c.result = .ok res))
    (htr : (q.tracker = p.tracker ∧ ∀ res, c.result = .ok res → w.addEntryErr c.sha ≠ none) ∨
      q.tracker = c.sha :: p.tracker) (r : Run) (hr : r.push = q) : Recorded w r := by
  obtain ⟨h1, h2⟩ := h
  simp only [Run.push] at h1 h2
  unfold Recorded
  rw [hr, hputs]
  constructor
  · intro d hd
    rcases hadds with ha | ⟨ha, hres⟩
    · rw [ha] at hd
      obtain ⟨c', hc', hh⟩ := h1 d hd
      exact ⟨c', List.mem_append_left _ hc', hh⟩
    · rw [ha] at hd
      rcases List.mem_append.1 hd with hd | hd
      · obtain ⟨c', hc', hh⟩ := h1 d hd
        exact ⟨c', List.mem_append_left _ hc', hh⟩
      · exact ⟨c, by simp, (List.mem_singleton.1 hd).symm, hres⟩
  · intro c' hc' res hres hadd
    rcases List.mem_append.1 hc' with hc' | hc'
    · have := h2 c' hc' res hres hadd
      rcases htr with ⟨ht, _⟩ | ht
      · rw [ht]; exact this
      · rw [ht]; exact List.mem_cons_of_mem _ this
    · have hc' := List.mem_singleton.1 hc'
      subst hc'
      rcases htr with ⟨_, ht⟩ | ht
      · exact (ht res hres hadd).elim
      · rw [ht]; exact List.mem_cons_self _ _

theorem recorded_same {w : Env} {r r' : Run} (h : Recorded w r)
    (hputs : r'.push.puts = r.push.puts) (hadds : r'.push.adds = r.push.adds)
    (htr : r'.push.tracker = r.push.tracker) : Recorded w r' := by
  unfold Recorded at h ⊢
  rw [hputs, hadds, htr]
  exact h

theorem recorded_step (w : Env) (r : Run) (h : Recorded w r) : Recorded w (step w r) := by
  cases r with
  | finished err p => exact h
  | running pos p =>
    have h0 : Recorded w (.running 0 p) := recorded_same h rfl rfl rfl
    rcases step_running w pos p with ⟨_, hs⟩ | ⟨hash, _, hs⟩
    · rw [hs]; exact recorded_same h rfl rfl rfl
    · rcases body_cases w p hash with ⟨e, hb⟩ | ⟨sha, _, _, hb⟩ |
        ⟨sha, expectedCid, obj, raw, _, hsha, _, _, _, hb⟩
      · rw [hb] at hs
        rcases hs with ⟨e', _, hs⟩ | ⟨hn, _⟩
        · rw [hs]; exact recorded_same h rfl rfl rfl
        · cases hn
      · rw [hb] at hs
        rcases hs with ⟨e', he, _⟩ | ⟨_, hs⟩
        · cases he
        · rw [hs]; exact recorded_same h rfl rfl rfl
      · rw [hb] at hs
        rcases upload_cases w p sha expectedCid (encodeObject obj.typ obj.size raw) with
          ⟨e, hput, hu⟩ | ⟨res', e, hput, hadd, hu⟩ | ⟨res', hput, hadd, hdiff, hu⟩ |
          ⟨e, hput, hadd, hu⟩ | ⟨hput, hadd, hu⟩
        · rw [hu] at hs
          rcases hs with ⟨e', he', hs⟩ | ⟨hn, _⟩
          · rw [hs]
            refine recorded_grow h0 (afterPut_puts w p sha expectedCid _) (Or.inl rfl)
              (Or.inl ⟨rfl, ?_⟩) _ rfl
            intro res hres
            simp only [hput] at hres
            cases hres
          · cases hn
        · rw [hu] at hs
          rcases hs with ⟨e', he', hs⟩ | ⟨hn, _⟩
          · rw [hs]
            refine recorded_grow h0 (afterAdd_puts w p sha expectedCid _)
              (Or.inr ⟨rfl, res', hput⟩) (Or.inl ⟨rfl, ?_⟩) _ rfl
            intro res _
            simp only [hadd]
            exact fun hh => by cases hh
          · cases hn
        · rw [hu] at hs
          rcases hs with ⟨e', he', hs⟩ | ⟨hn, _⟩
          · rw [hs]
            exact recorded_grow h0 (afterRecord_puts w p sha expectedCid _)
              (Or.inr ⟨rfl, res', hput⟩) (Or.inr rfl) _ rfl
          · cases hn
        · rw [hu] at hs
          rcases hs with ⟨e', he', hs⟩ | ⟨hn, _⟩
          · rw [hs]
            exact recorded_grow h0 (afterRecord_puts w p sha expectedCid _)
              (Or.inr ⟨rfl, expectedCid, hput⟩) (Or.inr rfl) _ rfl
          · cases hn
        · rw [hu] at hs
          rcases hs with ⟨e', he, _⟩ | ⟨_, hs⟩
          · cases he
          · rw [hs]
            obtain ⟨ds, hds⟩ := processLinks_appended w
              (afterRecord w p sha expectedCid (encodeObject obj.typ obj.size raw))
              (encodeObject obj.typ obj.size raw)
            refine recorded_grow h0 (hds.puts.trans (afterRecord_puts w p sha expectedCid _))
              (Or.inr ⟨hds.adds.trans rfl, expectedCid, hput⟩) (Or.inr (hds.tracker.trans rfl))
              _ rfl

/-- C3, as stated, fails: the remote store reports `cid-elsewhere` for C1, the `AddEntry`
call that follows fails, and the error sent on `out` is the ledger error, which contains
neither the expected nor the reported address. -/
theorem mismatch_message_lost :
    (PushHash (envWrongAddress true) 1 (NewPush []) (EncodeToString idC1)).push.puts.map
        (fun c => (c.expected, c.result))
      = [("cid-c1c1c1c1c1c1c1c1c1c1c1c1c1c1c1c1c1c1c1c1", .ok "cid-elsewhere")] ∧
    (PushHash (envWrongAddress true) 1 (NewPush []) (EncodeToString idC1)).signal
      = some (some "push: ledger: disk full") ∧
    ¬ Mentions "push: ledger: disk full" "cid-c1c1c1c1c1c1c1c1c1c1c1c1c1c1c1c1c1c1c1c1" ∧
    ¬ Mentions "push: ledger: disk full" "cid-elsewhere" := by
  refine ⟨rfl, by decide, ?_, ?_⟩
  · rintro ⟨a, b, h⟩
    have := congrArg String.length h
    simp only [String.length_append] at this
    have h1 : String.length "push: ledger: disk full" = 23 := by decide
    have h2 : String.length "cid-c1c1c1c1c1c1c1c1c1c1c1c1c1c1c1c1c1c1c1c1" = 44 := by decide
    omega
  · rintro ⟨a, b, h⟩
    have h3 : ("push: ledger: disk full").data = (a ++ "cid-elsewhere" ++ b).data :=
      congrArg String.data h
    simp only [String.data_append] at h3
    have h4 : ∀ l : List Char, l ∈ ["push: ledger: disk full".data] →
        ¬ ("cid-elsewhere".data <:+: l) := by decide
    exact h4 _ (List.mem_singleton_self _) ⟨a.data, b.data, h3.symm⟩

/-- C3, amended: if `DagPut` returned for some object an address other than its expected
CID, then a value was sent on `out`, it is an error, that call is the last `DagPut` call of
the run (however long the run is observed), and the error message is the mismatch message,
which contains both the expected and the reported address, when the `AddEntry` call that
follows `DagPut` succeeded, and is the ledger error when that call failed. -/
theorem address_mismatch_aborts (w : Env) (fuel : Nat) (p : Push) (hash : String)
    (c : PutCall) (res : String) (hp : p.puts = [])
    (hc : c ∈ (PushHash w fuel p hash).push.puts) (hres : c.result = .ok res)
    (hne : res ≠ c.expected) :
    ∃ msg q, PushHash w fuel p hash = .finished (some msg) q ∧ q.puts.getLast? = some c ∧
      (∀ n, PushHash w (fuel + n) p hash = .finished (some msg) q) ∧
      ((w.addEntryErr c.sha = none ∧ Mentions msg c.expected ∧ Mentions msg res) ∨
        ∃ e, w.addEntryErr c.sha = some e ∧ msg = "push: " ++ e) := by
  have h : Verified w (PushHash w fuel p hash) := by
    apply stepN_invariant w (Verified w) (verified_step w)
    simp [Verified, hp]
  have hfin : ∀ n, PushHash w (fuel + n) p hash = stepN w n (PushHash w fuel p hash) :=
    fun n => stepN_add w fuel n _
  revert hc h hfin
  generalize PushHash w fuel p hash = r
  intro hc h hfin
  cases r with
  | running pos q => exact (verified_old h hc hres hne).elim
  | finished err q =>
    obtain ⟨hlast, hmsg⟩ := h c hc res hres hne
    rcases hmsg with ⟨hadd, herr⟩ | ⟨e, hadd, herr⟩
    · subst herr
      refine ⟨_, q, rfl, hlast, fun n => by rw [hfin n, stepN_finished], Or.inl ⟨hadd, ?_, ?_⟩⟩
      · exact ⟨"CIDs don\x27t match: expected ", ", got " ++ res, by
          simp [mismatchMsg, String.append_assoc]⟩
      · exact ⟨"CIDs don\x27t match: expected " ++ c.expected ++ ", got ", "", by
          simp [mismatchMsg, String.append_assoc]⟩
    · subst herr
      exact ⟨_, q, rfl, hlast, fun n => by rw [hfin n, stepN_finished], Or.inr ⟨e, hadd, rfl⟩⟩

theorem address_mismatch_aborts_witness :
    ((NewPush []).puts = [] ∧
      (PushHash (envWrongAddress false) 1 (NewPush []) (EncodeToString idC1)).push.puts
        = [wrongCall] ∧
      "cid-elsewhere" ≠ wrongCall.expected) ∧
    ∃ msg q, PushHash (envWrongAddress false) 1 (NewPush []) (EncodeToString idC1)
        = .finished (some msg) q ∧ q.puts.getLast? = some wrongCall ∧
      (∀ n, PushHash (envWrongAddress false) (1 + n) (NewPush []) (EncodeToString idC1)
        = .finished (some msg) q) ∧
      (((envWrongAddress false).addEntryErr wrongCall.sha = none ∧
          Mentions msg wrongCall.expected ∧ Mentions msg "cid-elsewhere") ∨
        ∃ e, (envWrongAddress false).addEntryErr wrongCall.sha = some e ∧ msg = "push: " ++ e) :=
  ⟨⟨rfl, rfl, by decide⟩,
    address_mismatch_aborts (envWrongAddress false) 1 (NewPush []) (EncodeToString idC1)
      wrongCall "cid-elsewhere" rfl (List.mem_of_mem_head? rfl) rfl (by decide)⟩

/-- C8, as stated, fails: the remote store reports `cid-elsewhere` for C1, `AddEntry(C1)` is
called all the same, the run aborts with the mismatch error, and the ledger has an entry
for C1. -/
theorem recorded_before_verified :
    (PushHash (envWrongAddress false) 1 (NewPush []) (EncodeToString idC1)).signal
      = some (some (mismatchMsg "cid-c1c1c1c1c1c1c1c1c1c1c1c1c1c1c1c1c1c1c1c1" "cid-elsewhere")) ∧
    (PushHash (envWrongAddress false) 1 (NewPush []) (EncodeToString idC1)).push.puts.map
        (fun c => (c.sha, c.expected, c.result))
      = [(idC1, "cid-c1c1c1c1c1c1c1c1c1c1c1c1c1c1c1c1c1c1c1c1", .ok "cid-elsewhere")] ∧
    (PushHash (envWrongAddress false) 1 (NewPush []) (EncodeToString idC1)).push.adds = [idC1] ∧
    idC1 ∈ (PushHash (envWrongAddress false) 1 (NewPush []) (EncodeToString idC1)).push.tracker :=
  ⟨by decide, rfl, by decide, by decide⟩

/-- C8, amended: an identifier is recorded once `DagPut` has returned an address for it,
before that address is compared: if `AddEntry(d)` is called during the run, then `DagPut`
was called for `d` and returned an address (equal to the expected CID or not); and every
digest for which `DagPut` returned an address has a ledger entry afterwards, unless its
`AddEntry` call failed, so after a run that aborts with an address mismatch on `d` the
ledger has an entry for `d`. -/
theorem recorded_after_dagPut (w : Env) (fuel : Nat) (p : Push) (hash : String)
    (hp : p.puts = []) (ha : p.adds = []) :
    (∀ d ∈ (PushHash w fuel p hash).push.adds,
        ∃ c ∈ (PushHash w fuel p hash).push.puts, c.sha = d ∧ ∃ res, c.result = .ok res) ∧
      ∀ c ∈ (PushHash w fuel p hash).push.puts, ∀ res, c.result = .ok res →
        w.addEntryErr c.sha = none → c.sha ∈ (PushHash w fuel p hash).push.tracker := by
  apply stepN_invariant w (Recorded w) (recorded_step w)
  simp [Recorded, Run.push, hp, ha]

theorem recorded_after_dagPut_witness :
    ((NewPush []).puts = [] ∧ (NewPush []).adds = []) ∧
    ((∀ d ∈ (PushHash (envWrongAddress false) 1 (NewPush []) (EncodeToString idC1)).push.adds,
        ∃ c ∈ (PushHash (envWrongAddress false) 1 (NewPush []) (EncodeToString idC1)).push.puts,
          c.sha = d ∧ ∃ res, c.result = .ok res) ∧
      ∀ c ∈ (PushHash (envWrongAddress false) 1 (NewPush []) (EncodeToString idC1)).push.puts,
        ∀ res, c.result = .ok res → (envWrongAddress false).addEntryErr c.sha = none →
          c.sha ∈ (PushHash (envWrongAddress false) 1 (NewPush [])
            (EncodeToString idC1)).push.tracker) :=
  ⟨⟨rfl, rfl⟩,
    recorded_after_dagPut (envWrongAddress false) 1 (NewPush []) (EncodeToString idC1) rfl rfl⟩

/-! ## Termination -/

theorem fromHexChar_hextable (n : Nat) (hn : n < 16) :
    fromHexChar (hextable.getD n '0') = some n := by
  interval_cases n <;> rfl

theorem decodeChars_encodeChars (d : List Byte) : decodeChars (encodeChars d) = (d, none) := by
  induction d with
  | nil => rfl
  | cons v rest ih =>
    have h1 := fromHexChar_hextable (v.val / 16) (by omega)
    have h2 := fromHexChar_hextable (v.val % 16) (Nat.mod_lt _ (by norm_num))
    simp only [encodeChars, decodeChars, h1, h2, ih]
    have hv : (Fin.ofNat (v.val / 16 * 16 + v.val % 16) : Byte) = v := by
      apply Fin.ext
      simp only [Fin.ofNat, Nat.div_add_mod']
      exact Nat.mod_eq_of_lt v.isLt
    rw [hv]

/-- Decoding the hex form of a digest gives the digest back. -/
theorem decodeString_encodeToString (d : List Byte) :
    DecodeString (EncodeToString d) = (d, none) :=
  decodeChars_encodeChars d

theorem filter_length_lt {α : Type} (P Q : α → Bool) (l : List α) (hQP : ∀ a, Q a = true → P a = true)
    (a : α) (ha : a ∈ l) (hP : P a = true) (hQ : Q a = false) :
    (l.filter Q).length < (l.filter P).length := by
  induction l with
  | nil => cases ha
  | cons b l ih =>
    have hle : (l.filter Q).length ≤ (l.filter P).length := by
      clear ih ha
      induction l with
      | nil => simp
      | cons c l ihl =>
        simp only [List.filter_cons]
        cases hc : Q c
        · simp only [Bool.false_eq_true, if_false]
          split
          · simp only [List.length_cons]; omega
          · exact ihl
        · simp only [hQP c hc, if_true, List.length_cons]
          omega
    rcases List.mem_cons.1 ha with rfl | ha
    · simp only [List.filter_cons, hP, hQ, Bool.false_eq_true, if_false, if_true,
        List.length_cons]
      omega
    · have := ih ha
      simp only [List.filter_cons]
      cases hc : Q b
      · simp only [Bool.false_eq_true, if_false]
        split
        · simp only [List.length_cons]; omega
        · exact this
      · simp only [hQP b hc, if_true, List.length_cons]
        omega

theorem unrecorded_cons_lt (V : List (List Byte)) (p q : Push) (sha : List Byte)
    (hq : q.tracker = sha :: p.tracker) (hV : sha ∈ V) (hsha : sha ∉ p.tracker) :
    unrecorded V q + 1 ≤ unrecorded V p := by
  unfold unrecorded
  rw [hq]
  apply filter_length_lt _ _ V _ sha hV
  · simpa using hsha
  · simp
  · intro a ha
    simp only [List.mem_cons, not_or, decide_eq_true_eq] at ha ⊢
    exact ha.2

theorem terminates_of_measure (w : Env) (U V : List (List Byte)) (L : Nat)
    (hfin : FiniteGraph w U L) (hUV : ∀ d ∈ U, d ∈ V) (n : Nat) :
    ∀ pos p, (∀ s ∈ p.todo, (DecodeString s).1 ∈ V) → loopMeasure V L pos p ≤ n →
      ∃ k err q, stepN w k (.running pos p) = .finished err q := by
  induction n with
  | zero =>
    intro pos p _ hm
    rcases step_running w pos p with ⟨_, hs⟩ | ⟨hash, hget, _⟩
    · exact ⟨1, none, p, hs⟩
    · have := get?_lt hget
      unfold loopMeasure at hm
      omega
  | succ n ih =>
    intro pos p hinv hm
    rcases step_running w pos p with ⟨_, hs⟩ | ⟨hash, hget, hs⟩
    · exact ⟨1, none, p, hs⟩
    · have hpos := get?_lt hget
      have hmem : hash ∈ p.todo := List.get?_mem hget
      rcases hs with ⟨e, _, hs⟩ | ⟨hnone, hs⟩
      · exact ⟨1, some e, _, hs⟩
      · suffices hnext : (∀ s ∈ (body w p hash).1.todo, (DecodeString s).1 ∈ V) ∧
            loopMeasure V L (pos + 1) (body w p hash).1 ≤ n by
          obtain ⟨k, err, q, hk⟩ := ih (pos + 1) _ hnext.1 hnext.2
          exact ⟨k + 1, err, q, by rw [stepN, hs]; exact hk⟩
        rcases body_cases w p hash with ⟨e, hb⟩ | ⟨sha, _, _, hb⟩ |
          ⟨sha, expectedCid, obj, raw, hdec, hsha, _, hobj, hrd, hb⟩
        · rw [hb] at hnone; cases hnone
        · rw [hb]
          refine ⟨hinv, ?_⟩
          unfold loopMeasure unrecorded at hm ⊢
          simp only []
          omega
        · rw [hb] at hnone ⊢
          rcases upload_cases w p sha expectedCid (encodeObject obj.typ obj.size raw) with
            ⟨e, _, hu⟩ | ⟨res, e, _, _, hu⟩ | ⟨res, _, _, _, hu⟩ | ⟨e, _, _, hu⟩ | ⟨_, _, hu⟩
          · rw [hu] at hnone; cases hnone
          · rw [hu] at hnone; cases hnone
          · rw [hu] at hnone; cases hnone
          · rw [hu] at hnone; cases hnone
          · rw [hu]
            dsimp only
            obtain ⟨ds, hds⟩ := processLinks_appended w
              (afterRecord w p sha expectedCid (encodeObject obj.typ obj.size raw))
              (encodeObject obj.typ obj.size raw)
            have htodo := hds.todo
            have htr := hds.tracker
            simp only [afterRecord_todo] at htodo
            simp only [afterRecord_tracker] at htr
            have hshaV : sha ∈ V := by
              have := hinv hash hmem
              rwa [hdec] at this
            have hlinks : ds.length ≤ L ∧ ∀ d ∈ ds, d ∈ U := by
              cases hparse : w.ParseObjectFromBuffer (encodeObject obj.typ obj.size raw) with
              | error e =>
                have hlen := hds.length
                simp only [hparse, Except.toOption, Option.getD_none, List.length_nil,
                  Nat.le_zero, List.length_eq_zero] at hlen
                subst hlen
                exact ⟨by simp, by simp⟩
              | ok links =>
                obtain ⟨hL, hU⟩ := hfin _ obj raw links hobj hrd hparse
                have hlen := hds.length
                simp only [hparse, Except.toOption, Option.getD_some] at hlen
                refine ⟨le_trans hlen hL, fun d hd => ?_⟩
                obtain ⟨_, m, hm', hdm⟩ := hds.fresh d hd
                simp only [hparse, Except.toOption, Option.getD_some] at hm'
                exact hU m hm' d hdm
            constructor
            · intro s hs'
              rw [htodo] at hs'
              rcases List.mem_append.1 hs' with hs' | hs'
              · exact hinv s hs'
              · obtain ⟨d, hd, rfl⟩ := List.mem_map.1 hs'
                rw [decodeString_encodeToString]
                exact hUV d (hlinks.2 d hd)
            · have hcount := unrecorded_cons_lt V p _ sha htr hshaV hsha
              have hmul := Nat.mul_le_mul_left (L + 1) hcount
              rw [Nat.mul_add, Nat.mul_one] at hmul
              unfold loopMeasure at hm ⊢
              rw [htodo, List.length_append, List.length_map]
              have := hlinks.1
              omega

/-- C5: over a finite object graph (a list `U` holds every digest some stored object links
to, and no stored object has more than `L` links), for every root, every ledger and every
list left in `todo`, the loop of `doWork` terminates: after some number of turns a value is
sent on `out`. -/
theorem doWork_terminates (w : Env) (p : Push) (hash : String) (U : List (List Byte))
    (L : Nat) (hfin : FiniteGraph w U L) :
    ∃ fuel err q, PushHash w fuel p hash = .finished err q := by
  apply terminates_of_measure w U (U ++ (hash :: p.todo).map (fun s => (DecodeString s).1)) L
    hfin (fun d hd => List.mem_append_left _ hd) _ _ _ _ (le_refl _)
  intro s hs
  exact List.mem_append_right _ (List.mem_map.2 ⟨s, hs, rfl⟩)

theorem mkEnv_finiteGraph (objs : List Obj) (U : List (List Byte)) (L : Nat)
    (h : objs.all (linksWithin U L) = true) : FiniteGraph (mkEnv objs) U L := by
  intro hh obj raw links _ _ hparse
  simp only [mkEnv] at hparse
  split at hparse
  · rename_i o ho
    have hmem : o ∈ objs := List.mem_of_find?_eq_some ho
    have ho' := List.all_eq_true.1 h o hmem
    unfold linksWithin at ho'
    rw [hparse] at ho'
    simp only [Bool.and_eq_true, decide_eq_true_eq, List.all_eq_true] at ho'
    refine ⟨ho'.1, fun m hm d hd => ?_⟩
    have := ho'.2 m hm
    simp only [mkEnv] at hd
    rw [hd] at this
    simpa using this
  · cases hparse

theorem doWork_terminates_witness :
    FiniteGraph (mkEnv e2eParentFirst) [idC2, idT1, idB1, idB2] 2 ∧
      ∃ fuel err q, PushHash (mkEnv e2eParentFirst) fuel (NewPush []) (EncodeToString idC1)
        = .finished err q :=
  ⟨mkEnv_finiteGraph e2eParentFirst [idC2, idT1, idB1, idB2] 2 (by decide),
    doWork_terminates (mkEnv e2eParentFirst) (NewPush []) (EncodeToString idC1)
      [idC2, idT1, idB1, idB2] 2
      (mkEnv_finiteGraph e2eParentFirst [idC2, idT1, idB1, idB2] 2 (by decide))⟩

/-! ## The reachable closure, when no error of `processLinks` is dropped -/

/-- Whether `processLinksLoop` returns an error does not depend on the state: the ledger
only decides which links are appended. -/
theorem processLinksLoop_error_indep (w : Env) (links : List (List Byte)) (p p' : Push) :
    (processLinksLoop w links p).2 = (processLinksLoop w links p').2 := by
  induction links generalizing p p' with
  | nil => rfl
  | cons m links ih =>
    unfold processLinksLoop
    cases w.mhDecode m with
    | error e => rfl
    | ok digest =>
      simp only [HasEntry]
      cases w.hasEntryErr digest with
      | some e => rfl
      | none =>
        by_cases h : digest ∈ p.tracker <;> by_cases h' : digest ∈ p'.tracker <;>
          simp only [h, h', decide_True, decide_False] <;> exact ih _ _

theorem processLinks_error_indep (w : Env) (p p' : Push) (object : List Byte) :
    (processLinks w p object).2 = (processLinks w p' object).2 := by
  unfold processLinks
  cases w.ParseObjectFromBuffer object with
  | error e => rfl
  | ok links => exact processLinksLoop_error_indep w links p p'

/-- When `processLinksLoop` returns no error, every link has been decoded and is either in
the ledger or appended to the list. -/
theorem processLinksLoop_complete (w : Env) (links : List (List Byte)) (p : Push)
    (h : (processLinksLoop w links p).2 = none) :
    ∃ ds : List (List Byte),
      (processLinksLoop w links p).1.todo = p.todo ++ ds.map EncodeToString ∧
      ∀ m ∈ links, ∃ d, w.mhDecode m = .ok d ∧ (d ∈ p.tracker ∨ d ∈ ds) := by
  induction links generalizing p with
  | nil => exact ⟨[], by simp [processLinksLoop], by simp⟩
  | cons m links ih =>
    cases hdec : w.mhDecode m with
    | error e => simp [processLinksLoop, hdec] at h
    | ok digest =>
      cases hhas : HasEntry w p digest with
      | error e => simp [processLinksLoop, hdec, hhas] at h
      | ok b =>
        cases b with
        | true =>
          simp only [processLinksLoop, hdec, hhas] at h ⊢
          obtain ⟨ds, h1, h2⟩ := ih p h
          refine ⟨ds, h1, fun m' hm' => ?_⟩
          rcases List.mem_cons.1 hm' with rfl | hm'
          · exact ⟨digest, hdec, Or.inl (hasEntry_true hhas)⟩
          · exact h2 m' hm'
        | false =>
          simp only [processLinksLoop, hdec, hhas] at h ⊢
          obtain ⟨ds, h1, h2⟩ := ih _ h
          refine ⟨digest :: ds, by rw [h1]; simp, fun m' hm' => ?_⟩
          rcases List.mem_cons.1 hm' with rfl | hm'
          · exact ⟨digest, hdec, Or.inr (List.mem_cons_self _ _)⟩
          · obtain ⟨d, hd, hd'⟩ := h2 m' hm'
            exact ⟨d, hd, hd'.imp id (List.mem_cons_of_mem _)⟩

theorem newHash_of_decode {s : String} {sha : List Byte} (hdec : DecodeString s = (sha, none))
    (hlen : sha.length = 20) : NewHash s = sha := by
  unfold NewHash
  rw [hdec]
  exact List.take_left' hlen

theorem drop_of_get? {α : Type} {l : List α} {n : Nat} {a : α} (h : l.get? n = some a) :
    l.drop n = a :: l.drop (n + 1) := by
  have hlt := get?_lt h
  rw [List.drop_eq_getElem_cons hlt]
  congr 1
  rw [List.get?_eq_getElem? , List.getElem?_eq_getElem hlt] at h
  exact Option.some.inj h

theorem closed_step (w : Env) (hash : String) (root : List Byte)
    (hroot : DecodeString hash = (root, none)) (hlen : root.length = 20)
    (hlinks : ∀ m d, w.mhDecode m = .ok d → d.length = 20)
    (r : Run) (h : Closed w hash root r) : Closed w hash root (step w r) := by
  cases r with
  | finished err p => exact h
  | running pos p =>
    simp only [Closed] at h
    rcases step_running w pos p with ⟨hget, hs⟩ | ⟨s, hget, hs⟩
    · rw [hs]
      simp only [Closed]
      intro hok
      obtain ⟨h1, h2, _⟩ := h hok
      have hnil : p.todo.drop pos = [] :=
        List.drop_eq_nil_of_le (List.get?_eq_none.1 hget)
      rw [hnil] at h1 h2
      refine ⟨fun a ha b hb => ?_, ?_⟩
      · rcases h1 a ha b hb with hh | hh
        · exact hh
        · cases hh
      · rcases h2 with hh | hh
        · exact hh
        · cases hh
    · have hdrop := drop_of_get? hget
      rcases hs with ⟨e, _, hs⟩ | ⟨hnone, hs⟩
      · rw [hs]; trivial
      · rw [hs]
        rcases body_cases w p s with ⟨e, hb⟩ | ⟨sha, hdec, hin, hb⟩ |
          ⟨sha, expectedCid, obj, raw, hdec, hsha, _, hobj, hrd, hb⟩
        · rw [hb] at hnone; cases hnone
        · rw [hb]
          simp only [Closed]
          intro hok
          obtain ⟨h1, h2, h3⟩ := h hok
          rw [hdrop] at h1 h2 h3
          refine ⟨fun a ha b hb' => ?_, ?_, fun t ht => h3 t (List.mem_cons_of_mem _ ht)⟩
          · rcases h1 a ha b hb' with hh | hh
            · exact Or.inl hh
            · rcases List.mem_cons.1 hh with hh | hh
              · have := decodeString_encodeToString b
                rw [hh, hdec] at this
                cases this
                exact Or.inl hin
              · exact Or.inr hh
          · rcases h2 with hh | hh
            · exact Or.inl hh
            · rcases List.mem_cons.1 hh with hh | hh
              · rw [hh, hdec] at hroot
                cases hroot
                exact Or.inl hin
              · exact Or.inr hh
        · rw [hb] at hnone ⊢
          rcases upload_cases w p sha expectedCid (encodeObject obj.typ obj.size raw) with
            ⟨e, _, hu⟩ | ⟨res, e, _, _, hu⟩ | ⟨res, _, _, _, hu⟩ | ⟨e, _, _, hu⟩ | ⟨_, _, hu⟩
          · rw [hu] at hnone; cases hnone
          · rw [hu] at hnone; cases hnone
          · rw [hu] at hnone; cases hnone
          · rw [hu] at hnone; cases hnone
          · rw [hu]
            dsimp only
            obtain ⟨ds, hds⟩ := processLinks_appended w
              (afterRecord w p sha expectedCid (encodeObject obj.typ obj.size raw))
              (encodeObject obj.typ obj.size raw)
            have htodo := hds.todo
            have htr := hds.tracker
            have hputs := hds.puts
            simp only [afterRecord_todo] at htodo
            simp only [afterRecord_tracker] at htr
            simp only [afterRecord_puts] at hputs
            simp only [Closed]
            intro hok
            rw [hputs] at hok
            obtain ⟨h1, h2, h3⟩ := h (fun c hc => hok c (List.mem_append_left _ hc))
            have hnew := hok _ (List.mem_append_right _ (List.mem_singleton_self _))
            simp only at hnew
            rw [hdrop] at h1 h2 h3
            have hpos := get?_lt hget
            have hdrop' : (p.todo ++ ds.map EncodeToString).drop (pos + 1)
                = p.todo.drop (pos + 1) ++ ds.map EncodeToString :=
              List.drop_append_of_le_length (by omega)
            rw [htodo, htr, hdrop']
            have hsha20 : sha.length = 20 := by
              rcases h3 s (List.mem_cons_self _ _) with hh | ⟨d, hd, hh⟩
              · rw [hh, hroot] at hdec
                cases hdec
                exact hlen
              · rw [hh, decodeString_encodeToString] at hdec
                cases hdec
                exact hd
            rw [newHash_of_decode hdec hsha20] at hobj
            refine ⟨fun a ha b hb' => ?_, ?_, fun t ht => ?_⟩
            · rcases List.mem_cons.1 ha with rfl | ha
              · rw [processLinks_error_indep w _
                  (afterRecord w p a expectedCid (encodeObject obj.typ obj.size raw))] at hnew
                unfold processLinks at hnew
                unfold objectLinks at hb'
                rw [hobj] at hb'
                simp only [hrd] at hb'
                cases hparse : w.ParseObjectFromBuffer (encodeObject obj.typ obj.size raw) with
                | error e => rw [hparse] at hb'; cases hb'
                | ok links =>
                  rw [hparse] at hb' hnew
                  simp only [List.mem_filterMap] at hb'
                  obtain ⟨m, hm, hmb⟩ := hb'
                  obtain ⟨ds', hds1, hds2⟩ := processLinksLoop_complete w links _ hnew
                  have hsame : ds'.map EncodeToString = ds.map EncodeToString := by
                    have h5 := hds.todo
                    unfold processLinks at h5
                    rw [hparse] at h5
                    simp only at h5
                    rw [hds1] at h5
                    exact List.append_cancel_left h5
                  obtain ⟨d, hd, hd'⟩ := hds2 m hm
                  rw [hd] at hmb
                  simp only [Except.toOption, Option.some.injEq] at hmb
                  subst hmb
                  rcases hd' with hd' | hd'
                  · exact Or.inl hd'
                  · refine Or.inr (List.mem_append_right _ ?_)
                    rw [← hsame]
                    exact List.mem_map_of_mem _ hd'
              · rcases h1 a ha b hb' with hh | hh
                · exact Or.inl (List.mem_cons_of_mem _ hh)
                · rcases List.mem_cons.1 hh with hh | hh
                  · have := decodeString_encodeToString b
                    rw [hh, hdec] at this
                    cases this
                    exact Or.inl (List.mem_cons_self _ _)
                  · exact Or.inr (List.mem_append_left _ hh)
            · rcases h2 with hh | hh
              · exact Or.inl (List.mem_cons_of_mem _ hh)
              · rcases List.mem_cons.1 hh with hh | hh
                · rw [hh, hdec] at hroot
                  cases hroot
                  exact Or.inl (List.mem_cons_self _ _)
                · exact Or.inr (List.mem_append_left _ hh)
            · rcases List.mem_append.1 ht with ht | ht
              · exact h3 t (List.mem_cons_of_mem _ ht)
              · obtain ⟨d, hd, rfl⟩ := List.mem_map.1 ht
                obtain ⟨_, m, _, hm⟩ := hds.fresh d hd
                exact Or.inr ⟨d, hlinks m d hm, rfl⟩

/-- The statement of C4 holds for the runs in which `processLinks` returned no error: if the
first `PushHash` on a fresh `Push` over an empty ledger, for a root of 20 bytes in a store
whose links carry digests of 20 bytes, sends `nil`, and `processLinks` fails on none of the
uploaded canonical forms, then every identifier reachable from the root is in the ledger. -/
theorem closure_recorded_of_no_error (w : Env) (fuel : Nat) (hash : String) (root : List Byte)
    (q : Push) (hroot : DecodeString hash = (root, none)) (hlen : root.length = 20)
    (hlinks : ∀ m d, w.mhDecode m = .ok d → d.length = 20)
    (hrun : PushHash w fuel (NewPush []) hash = .finished none q)
    (hok : ∀ c ∈ q.puts, (processLinks w (NewPush []) c.data).2 = none) :
    ∀ d, Reachable w root d → d ∈ q.tracker := by
  have h : Closed w hash root (PushHash w fuel (NewPush []) hash) := by
    apply stepN_invariant w (Closed w hash root) (closed_step w hash root hroot hlen hlinks)
    simp [Closed, NewPush]
  rw [hrun] at h
  obtain ⟨h1, h2⟩ := h hok
  intro d hd
  induction hd with
  | refl => exact h2
  | tail _ hab ih => exact h1 _ ih _ hab

theorem closure_recorded_of_no_error_witness :
    ∀ d, Reachable (mkEnv e2e) idC1 d →
      d ∈ (PushHash (mkEnv e2e) 6 (NewPush []) (EncodeToString idC1)).push.tracker :=
  closure_recorded_of_no_error (mkEnv e2e) 6 (EncodeToString idC1) idC1
    (PushHash (mkEnv e2e) 6 (NewPush []) (EncodeToString idC1)).push (by decide) rfl
    (fun m d h => by
      simp only [mkEnv] at h
      unfold Scenario.mhDecode at h
      split at h
      · split at h
        · rename_i hc
          cases h
          exact hc.2.2
        · cases h
      · cases h)
    rfl (by decide)

end Core
